import Mathlib

/-
Verification of the exact linear-algebra core of GiNaC (ginac/matrix.cpp).

The development shallowly embeds matrix.cpp.  GiNaC's symbolic expression
type ex (an external collaborator here, the spec's RingElement) is modelled
by an abstract field F with decidable equality: the spec restricts entries
to elements of a commutative ring of exact integers, rationals, polynomials
or rational functions, all of which embed in a field of fractions, and the
canonicalising operations expand()/normal() are semantic identities in this
model (every value of F is its own canonical form).  to_rational(srl) on a
field value is modelled as the pair (numerator = the value, denominator = 1)
with an empty substitution list.  Plain-number-ness (info_flags::numeric) is
not derivable from the field structure, so it is passed in as an explicit
predicate wherever the source queries it.

Two views of a matrix are used, both faithful to the source:
 * GMat: the untyped view, exactly the source's data layout (row count,
   column count, flat row-major entry vector, entry (r,c) at index r*col+c),
   used for the operations whose behaviour on dimension errors matters and
   for the solver;
 * typed square matrices Matrix (Fin n) (Fin n) F for the determinant
   algorithms, where the source's column-major loops are written as the
   structural recursion they implement (each loop iteration acts on the
   trailing block of the matrix consisting of the not-yet-eliminated rows
   and columns; the recursion passes that block directly).

Thrown C++ exceptions are modelled as constructors of an error type, one
per row of the spec's error table; functions that can throw return Except.
-/

namespace Ginac

/-- Error kinds of the spec's error table (section 7).  The source throws
std::logic_error / runtime_error / invalid_argument / range_error with
distinguishing message strings; each distinct message is a constructor. -/
inductive Err where
  | dimensionMismatch
  | invalidArgument
  | singularMatrix
  | inconsistentSystem
  | indexOutOfRange
  | nonSquareMatrix
  | unsupportedExponent
  | internalFault
  deriving DecidableEq, Repr

instance {ε α : Type} [DecidableEq ε] [DecidableEq α] : DecidableEq (Except ε α)
  | .error a, .error b => decidable_of_iff (a = b) (by simp)
  | .error _, .ok _ => .isFalse (by simp)
  | .ok _, .error _ => .isFalse (by simp)
  | .ok a, .ok b => decidable_of_iff (a = b) (by simp)

/-- Algorithm selector for matrix::determinant (determinant_algo). -/
inductive DetAlgo where
  | automatic
  | gauss
  | divfree
  | laplace
  | bareiss
  deriving DecidableEq, Repr

/-- Algorithm selector for matrix::solve (solve_algo). -/
inductive SolveAlgo where
  | automatic
  | gauss
  | divfree
  | bareiss
  deriving DecidableEq, Repr

/-- Untyped matrix, exactly the representation of class matrix: a row
count, a column count and the flat row-major entry vector m, where entry
(r,c) lives at index r*col+c. -/
structure GMat (α : Type) where
  row : ℕ
  col : ℕ
  m : List α
  deriving DecidableEq, Repr

variable {α : Type}

/-- Entry read m[r*col+c].  Reads outside the backing vector (which in the
source would be undefined behaviour of std::vector indexing) return 0. -/
def GMat.getE [Zero α] (A : GMat α) (r c : ℕ) : α :=
  A.m.getD (r * A.col + c) 0

/-- Row swap performed by matrix::pivot (lines 1415-1416): entries of rows
k and ro are exchanged columnwise; all other entries are untouched. -/
def GMat.swapRows [Zero α] (A : GMat α) (k ro : ℕ) : GMat α :=
  { A with m := (List.range A.m.length).map fun i =>
      if i / A.col = k then A.getE ro (i % A.col)
      else if i / A.col = ro then A.getE k (i % A.col)
      else A.m.getD i 0 }

section PivotDef

variable {F : Type} [LinearOrderedField F] [DecidableEq F]

/-- Search loop of the symbolic branch of matrix::pivot (lines 1387-1389):
the first row k in [ro, row) whose entry in column co is nonzero
(expand() is the identity in this model); row if there is none. -/
def pivotFirstNonzero (A : GMat F) (ro co : ℕ) : ℕ :=
  match (List.range' ro (A.row - ro)).find? (fun k => decide (A.getE k co ≠ 0)) with
  | some k => k
  | none => A.row

/-- Search loop of the numeric branch of matrix::pivot (lines 1393-1403),
verbatim: kmax starts at ro+1, mmax starts as abs of the row-(ro+1) entry,
and when abs(tmp) > mmax the code stores mmax = tmp (without abs) and
k = kmax.  Returns the final (k, mmax).  The loop runs while kmax < row;
fuel is the number of remaining iterations row - kmax, passed explicitly
so that the recursion is structural. -/
def pivotNumLoop (A : GMat F) (co : ℕ) : ℕ → ℕ → ℕ → F → ℕ × F
  | 0, _, k, mmax => (k, mmax)
  | fuel + 1, kmax, k, mmax =>
    let tmp := A.getE kmax co
    if |tmp| > mmax then pivotNumLoop A co fuel (kmax + 1) kmax tmp
    else pivotNumLoop A co fuel (kmax + 1) k mmax

/-- Partial pivoting method matrix::pivot (lines 1383-1419).  Returns the
source's int return value (-1: all candidates vanish; 0: no interchange;
k > 0: rows ro and k were swapped) together with the updated matrix.
In the numeric branch the source reads m[(ro+1)*col+co] before checking
kmax < row; entries read beyond the backing vector are modelled as 0. -/
def GMat.pivot (A : GMat F) (ro co : ℕ) (symbolic : Bool) : Int × GMat F :=
  let k :=
    if symbolic then
      pivotFirstNonzero A ro co
    else
      -- search largest element in column co beginning at row ro
      let start := |A.getE (ro + 1) co|
      let (k, mmax) := pivotNumLoop A co (A.row - (ro + 1)) (ro + 1) ro start
      -- the final line of the scan: if (!mmax.is_zero()) k = kmax;
      -- kmax equals row when the while loop exits
      if mmax ≠ 0 then A.row else k
  if k = A.row then (-1, A)
  else if k = ro then (0, A)
  else ((k : Int), A.swapRows k ro)

end PivotDef

/-- Entry write m[r*col+c] = x (writes outside the backing vector are
dropped, as List.set drops out-of-range indices). -/
def GMat.setE (A : GMat α) (r c : ℕ) (x : α) : GMat α :=
  { A with m := A.m.set (r * A.col + c) x }

/-- Row swap of matrix::fraction_free_elimination applied to the
denominator grid (lines 1323-1324): only the entries in columns c0..n-1 of
rows k and ro are exchanged. -/
def GMat.swapRowsFrom [Zero α] (A : GMat α) (k ro c0 : ℕ) : GMat α :=
  { A with m := (List.range A.m.length).map fun i =>
      if i / A.col = k ∧ c0 ≤ i % A.col then A.getE ro (i % A.col)
      else if i / A.col = ro ∧ c0 ≤ i % A.col then A.getE k (i % A.col)
      else A.m.getD i 0 }

section ElimDef

variable {F : Type} [LinearOrderedField F] [DecidableEq F]

/-- Inner row update of matrix::gauss_elimination (lines 1170-1182): for
row r2, if its entry in the pivot column r1 is nonzero, subtract
piv = m[r2][r1]/m[r0][r1] times the pivot row from it in the columns right
of r1 (the source normalizes each non-numeric result; normal() is the
identity here), then fill the columns 0..r1 of row r2 with zeros. -/
def gaussRowOp (nn : ℕ) (r0 r1 : ℕ) (A : GMat F) (r2 : ℕ) : GMat F :=
  let A1 :=
    if A.getE r2 r1 ≠ 0 then
      let piv := A.getE r2 r1 / A.getE r0 r1
      (List.range' (r1 + 1) (nn - (r1 + 1))).foldl
        (fun B c => B.setE r2 c (B.getE r2 c - piv * B.getE r0 c)) A
    else A
  (List.range (r1 + 1)).foldl (fun B c => B.setE r2 c 0) A1

/-- Loop body of matrix::gauss_elimination for one pivot column (lines
1161-1190), after a pivot has been found: eliminate every row below r0,
and in determinant mode delete the needless entries right of the diagonal
in the pivot row. -/
def gaussElimStep (det : Bool) (mm nn : ℕ) (r0 r1 : ℕ) (A : GMat F) : GMat F :=
  let A1 := (List.range' (r0 + 1) (mm - (r0 + 1))).foldl (gaussRowOp nn r0 r1) A
  if det then
    (List.range' (r0 + 1) (nn - (r0 + 1))).foldl (fun B c => B.setE r0 c 0) A1
  else A1

/-- Column loop of matrix::gauss_elimination (lines 1159-1191).  mm and nn
are the row and column counts captured at entry; r1 is the pivot column,
r0 the pivot row; in determinant mode a degenerate column returns sign 0
at once, otherwise sign becomes (and stays) 0 and the loop continues.
The loop exit condition is the source's r1 < nn-1 && r0 < mm-1; fuel
bounds the number of remaining iterations (nn at the initial call, r1
increasing every iteration) so that the recursion is structural. -/
def gaussElimLoop (det : Bool) (mm nn : ℕ) : ℕ → ℕ → ℕ → Int → GMat F → Int × GMat F
  | 0, _, _, sign, A => (sign, A)
  | fuel + 1, r1, r0, sign, A =>
    if r1 < nn - 1 ∧ r0 < mm - 1 then
      let p := A.pivot r0 r1 true
      if p.1 = -1 then
        if det then (0, p.2)
        else gaussElimLoop det mm nn fuel (r1 + 1) r0 0 p.2
      else
        let sign1 := if p.1 > 0 then -sign else sign
        gaussElimLoop det mm nn fuel (r1 + 1) (r0 + 1) sign1 (gaussElimStep det mm nn r0 r1 p.2)
    else (sign, A)

/-- matrix::gauss_elimination (lines 1151-1194): ordinary Gaussian
elimination to upper echelon form; returns the permutation sign (0 when
the matrix is singular) and the reduced matrix. -/
def GMat.gauss_elimination (A : GMat F) (det : Bool) : Int × GMat F :=
  gaussElimLoop det A.row A.col A.col 0 0 1 A

/-- Inner row update of matrix::division_free_elimination (lines
1224-1230): new entry = m[r0][r1]*m[r2][c] - m[r2][r1]*m[r0][c] for the
columns right of r1 (expand() is the identity here), then zero fill of
columns 0..r1. -/
def divfreeRowOp (nn : ℕ) (r0 r1 : ℕ) (A : GMat F) (r2 : ℕ) : GMat F :=
  let A1 := (List.range' (r1 + 1) (nn - (r1 + 1))).foldl
      (fun B c => B.setE r2 c (B.getE r0 r1 * B.getE r2 c - B.getE r2 r1 * B.getE r0 c)) A
  (List.range (r1 + 1)).foldl (fun B c => B.setE r2 c 0) A1

/-- Loop body of matrix::division_free_elimination for one pivot column
(lines 1221-1237) after a pivot has been found. -/
def divfreeElimStep (det : Bool) (mm nn : ℕ) (r0 r1 : ℕ) (A : GMat F) : GMat F :=
  let A1 := (List.range' (r0 + 1) (mm - (r0 + 1))).foldl (divfreeRowOp nn r0 r1) A
  if det then
    (List.range' (r0 + 1) (nn - (r0 + 1))).foldl (fun B c => B.setE r0 c 0) A1
  else A1

/-- Column loop of matrix::division_free_elimination (lines 1213-1240),
with the same fuel convention as gaussElimLoop. -/
def divfreeElimLoop (det : Bool) (mm nn : ℕ) : ℕ → ℕ → ℕ → Int → GMat F → Int × GMat F
  | 0, _, _, sign, A => (sign, A)
  | fuel + 1, r1, r0, sign, A =>
    if r1 < nn - 1 ∧ r0 < mm - 1 then
      let p := A.pivot r0 r1 true
      if p.1 = -1 then
        if det then (0, p.2)
        else divfreeElimLoop det mm nn fuel (r1 + 1) r0 0 p.2
      else
        let sign1 := if p.1 > 0 then -sign else sign
        divfreeElimLoop det mm nn fuel (r1 + 1) (r0 + 1) sign1 (divfreeElimStep det mm nn r0 r1 p.2)
    else (sign, A)

/-- matrix::division_free_elimination (lines 1205-1241). -/
def GMat.division_free_elimination (A : GMat F) (det : Bool) : Int × GMat F :=
  divfreeElimLoop det A.row A.col A.col 0 0 1 A

/-- Inner row update of matrix::fraction_free_elimination (lines
1326-1343) on the numerator grid N and denominator grid D: for the columns
right of r1, dividend_n = N[r0][r1]*N[r2][c]*D[r2][r1]*D[r0][c]
- N[r2][r1]*N[r0][c]*D[r0][r1]*D[r2][c] and dividend_d is the product of
the four denominators; each is divided exactly by the previous pivot's
numerator and denominator respectively (divide() with exactness check in
the source; division in the field model, the exactness being the content
of the Sylvester determinant identity quoted in the source's comment).
Then the columns 0..r1 of row r2 of the numerator grid are zero filled. -/
def bareissRowOp (nn : ℕ) (r0 r1 : ℕ) (divisor_n divisor_d : F)
    (ND : GMat F × GMat F) (r2 : ℕ) : GMat F × GMat F :=
  let ND1 := (List.range' (r1 + 1) (nn - (r1 + 1))).foldl
      (fun (B : GMat F × GMat F) c =>
        let dividend_n := B.1.getE r0 r1 * B.1.getE r2 c * B.2.getE r2 r1 * B.2.getE r0 c
                        - B.1.getE r2 r1 * B.1.getE r0 c * B.2.getE r0 r1 * B.2.getE r2 c
        let dividend_d := B.2.getE r2 r1 * B.2.getE r0 c * B.2.getE r0 r1 * B.2.getE r2 c
        (B.1.setE r2 c (dividend_n / divisor_n), B.2.setE r2 c (dividend_d / divisor_d))) ND
  ((List.range (r1 + 1)).foldl (fun B c => B.setE r2 c 0) ND1.1, ND1.2)

/-- Column loop of matrix::fraction_free_elimination (lines 1312-1358),
carrying the numerator grid, the denominator grid, the sign and the
divisors of the previous step.  A row interchange found by pivoting on the
numerator grid is replayed on the denominator grid from column r1 on; at
the end of a column step the next divisors are the pivot's numerator and
denominator and, in determinant mode, the pivot row is blanked (numerators
to 0, denominators to 1). -/
def bareissElimLoop (det : Bool) (mm nn : ℕ) :
    ℕ → ℕ → ℕ → Int → F → F → GMat F → GMat F → Int × GMat F × GMat F
  | 0, _, _, sign, _, _, N, D => (sign, N, D)
  | fuel + 1, r1, r0, sign, divisor_n, divisor_d, N, D =>
    if r1 < nn - 1 ∧ r0 < mm - 1 then
      let p := N.pivot r0 r1 true
      if p.1 = -1 then
        if det then (0, p.2, D)
        else bareissElimLoop det mm nn fuel (r1 + 1) r0 0 divisor_n divisor_d p.2 D
      else
        let sign1 := if p.1 > 0 then -sign else sign
        let D1 := if p.1 > 0 then D.swapRowsFrom p.1.toNat r0 r1 else D
        let ND2 := (List.range' (r0 + 1) (mm - (r0 + 1))).foldl
            (bareissRowOp nn r0 r1 divisor_n divisor_d) (p.2, D1)
        -- compute next iteration's divisor (expand() is the identity here)
        let divisor_n1 := ND2.1.getE r0 r1
        let divisor_d1 := ND2.2.getE r0 r1
        let ND3 :=
          if det then
            ((List.range' 0 nn).foldl (fun B c => B.setE r0 c 0) ND2.1,
             (List.range' 0 nn).foldl (fun B c => B.setE r0 c 1) ND2.2)
          else ND2
        bareissElimLoop det mm nn fuel (r1 + 1) (r0 + 1) sign1 divisor_n1 divisor_d1 ND3.1 ND3.2
    else (sign, N, D)

/-- matrix::fraction_free_elimination (lines 1254-1367).  In this model
normal().to_rational(srl) splits a field value x into numerator x and
denominator 1, so the numerator grid starts as a copy of the matrix and
the denominator grid as all ones; at the end the matrix is repopulated
with numerator/denominator (the substitution srl being empty). -/
def GMat.fraction_free_elimination (A : GMat F) (det : Bool) : Int × GMat F :=
  if A.row = 1 then (1, A)
  else
    let N0 := A
    let D0 : GMat F := { A with m := A.m.map fun _ => 1 }
    let r := bareissElimLoop det A.row A.col A.col 0 0 1 1 1 N0 D0
    (r.1, { A with m := List.zipWith (· / ·) r.2.1.m r.2.2.m })

end ElimDef

/-- Solution-cell expressions of matrix::solve.  The coefficient matrix and
right hand side live in F; the unknowns are bare symbols, and every
expression matrix::solve stores into its solution grid is an F-affine
combination of those symbols (a constant plus Σ coeffs[i]·symbolᵢ over the
global symbol ids i).  Aff F is the image of GiNaC's ex restricted to such
expressions; the list of coefficients is indexed by symbol id, absent tail
entries meaning coefficient 0. -/
structure Aff (F : Type) where
  const : F
  coeffs : List F
  deriving DecidableEq, Repr

namespace Aff

variable {F : Type} [Field F] [DecidableEq F]

instance : Zero (Aff F) := ⟨⟨0, []⟩⟩

/-- Coefficientwise sum of two coefficient lists, the shorter one padded
with zeros. -/
def addCoeffs : List F → List F → List F
  | [], l => l
  | l, [] => l
  | a :: as, b :: bs => (a + b) :: addCoeffs as bs

/-- Sum of two affine expressions. -/
def add (x y : Aff F) : Aff F := ⟨x.const + y.const, addCoeffs x.coeffs y.coeffs⟩

/-- Negation of an affine expression. -/
def neg (x : Aff F) : Aff F := ⟨-x.const, x.coeffs.map Neg.neg⟩

/-- Difference of two affine expressions. -/
def sub (x y : Aff F) : Aff F := x.add y.neg

/-- Product of a scalar and an affine expression. -/
def smul (a : F) (x : Aff F) : Aff F := ⟨a * x.const, x.coeffs.map (a * ·)⟩

/-- Exact division of an affine expression by a scalar. -/
def divBy (x : Aff F) (a : F) : Aff F := ⟨x.const / a, x.coeffs.map (· / a)⟩

/-- Constant expression. -/
def ofConst (a : F) : Aff F := ⟨a, []⟩

/-- Bare symbol with id i. -/
def var (i : ℕ) : Aff F := ⟨0, List.replicate i 0 ++ [1]⟩

/-- Predicate info_flags::symbol of the expression collaborator, on the
Aff fragment: an expression is a bare symbol iff it is some var i, i.e.
its constant part vanishes and its coefficients are a single 1 among
zeros. -/
def isSymbol (x : Aff F) : Bool :=
  decide (x.const = 0) && decide (x.coeffs.filter (fun a => decide (a ≠ 0)) = [1])

end Aff

section MulDef

variable {F : Type} [Field F] [DecidableEq F]

/-- Identity matrix as built by matrix::pow (lines 603-605) and
matrix::inverse (lines 891-893): an r x r zero matrix whose diagonal is
then set to 1. -/
def identityG (n : ℕ) : GMat F :=
  ⟨n, n, (List.range (n * n)).map fun i => if i / n = i % n then 1 else 0⟩

/-- matrix::mul (lines 536-552): each output cell accumulates the sum of
products over the inner index c, a zero left factor short-circuiting its
inner loop, each product expanded (the identity here).  The source first
throws the incompatible-matrices error when cols(A) is not rows(B); every
call embedded here is well-dimensioned, so the product is given directly
with the source's row/column counts A.row x B.col. -/
def GMat.mul (A B : GMat F) : GMat F :=
  ⟨A.row, B.col, (List.range (A.row * B.col)).map fun i =>
    let r1 := i / B.col
    let r2 := i % B.col
    ((List.range A.col).map fun c =>
      if A.getE r1 c = 0 then 0 else A.getE r1 c * B.getE c r2).sum⟩

/-- Well-formedness of an untyped matrix as an N x N square matrix: the
dimension fields are N and the backing vector has the full N*N length, the
invariant the source's representation maintains. -/
def WFN (N : ℕ) (A : GMat F) : Prop :=
  A.row = N ∧ A.col = N ∧ A.m.length = N * N

/-- View of a well-formed untyped N x N matrix as a typed matrix. -/
def toMatN (N : ℕ) (A : GMat F) : Matrix (Fin N) (Fin N) F :=
  Matrix.of fun r c => A.getE r c

end MulDef

section SolveDef

variable {F : Type} [LinearOrderedField F] [DecidableEq F]

/-- Augmented matrix of matrix::solve (lines 943-949): the m x (n+p)
matrix with this on the left and rhs attached to the right. -/
def solveAug (A rhs : GMat F) : GMat F :=
  let n := A.col
  let p := rhs.col
  ⟨A.row, n + p, (List.range (A.row * (n + p))).map fun i =>
    let r := i / (n + p)
    let c := i % (n + p)
    if c < n then A.getE r c else rhs.getE r (c - n)⟩

/-- Elimination-scheme heuristics of matrix::solve (lines 959-969):
Bareiss by default, division-free for fewer than 3 rows, Gauss when the
augmented matrix is purely numeric. -/
def solveAlgoChoice (algo : SolveAlgo) (mm : ℕ) (numeric_flag : Bool) : SolveAlgo :=
  if algo = SolveAlgo.automatic then
    let a := SolveAlgo.bareiss
    let a := if mm < 3 then SolveAlgo.divfree else a
    if numeric_flag then SolveAlgo.gauss else a
  else algo

/-- Eliminated augmented matrix of matrix::solve (lines 943-982): the
augmented matrix after the selected elimination scheme has run (not in
determinant mode).  numeric_flag is gathered from the augmented matrix
entries with the collaborator predicate isNum. -/
def solveElimAug (A rhs : GMat F) (algo : SolveAlgo) (isNum : F → Bool) : GMat F :=
  let aug := solveAug A rhs
  let numeric_flag := aug.m.all isNum
  match solveAlgoChoice algo A.row numeric_flag with
  | SolveAlgo.gauss => (aug.gauss_elimination false).2
  | SolveAlgo.divfree => (aug.division_free_elimination false).2
  | _ => (aug.fraction_free_elimination false).2

/-- First-nonzero scan of matrix::solve's back substitution (lines
989-991): the 1-based position of the first nonzero entry among the first
nn columns of row r of the eliminated augmented matrix, nn+1 if the row's
coefficient part is all zeros. -/
def fnzOf (E : GMat F) (nn r : ℕ) : ℕ :=
  match (List.range nn).find? (fun c => decide (E.getE r c ≠ 0)) with
  | some c => c + 1
  | none => nn + 1

/-- Back-substitution row scan of matrix::solve (lines 988-1008) for right
hand side column co, processing rows bottom-up (the next row processed is
rcount-1).  A row whose coefficient part is all zero fails with the
inconsistent-system error when its augmented cell for column co is
nonzero; otherwise the unknowns strictly between the row's leading column
and the previously assigned one become free parameters (the caller's
symbols), and the leading unknown is solved and normalized (normal() is
the identity here). -/
def scanRows (E : GMat F) (vars : GMat (Aff F)) (nn pp co : ℕ) :
    (rcount : ℕ) → GMat (Aff F) → ℕ → Except Err (GMat (Aff F) × ℕ)
  | 0, sol, las => .ok (sol, las)
  | rc + 1, sol, las =>
    let fnz := fnzOf E nn rc
    if fnz > nn then
      -- row consists only of zeros, corresponding rhs must be 0, too
      if E.getE rc (nn + co) ≠ 0 then .error Err.inconsistentSystem
      else scanRows E vars nn pp co rc sol las
    else
      let sol1 := (List.range' fnz (las - 1 - fnz)).foldl
          (fun (s : GMat (Aff F)) c => s.setE c co (vars.getE c co)) sol
      let e := (List.range' fnz (nn - fnz)).foldl
          (fun acc c => acc.sub (Aff.smul (E.getE rc c) (sol1.getE c co)))
          (Aff.ofConst (E.getE rc (nn + co)))
      scanRows E vars nn pp co rc (sol1.setE (fnz - 1) co (e.divBy (E.getE rc (fnz - 1)))) fnz

/-- One iteration of the right-hand-side column loop of matrix::solve
(lines 986-1013): scan all mm rows bottom-up starting with
last_assigned_sol = nn+1, then make the unknowns below the last assigned
one free parameters. -/
def solveCol (E : GMat F) (vars : GMat (Aff F)) (mm nn pp co : ℕ)
    (sol : GMat (Aff F)) : Except Err (GMat (Aff F)) :=
  match scanRows E vars nn pp co mm sol (nn + 1) with
  | .error e => .error e
  | .ok r =>
    .ok ((List.range (r.2 - 1)).foldl (fun (s : GMat (Aff F)) ro => s.setE ro co (vars.getE ro co)) r.1)

/-- Right-hand-side column loop of matrix::solve (lines 986-1013). -/
def solveCols (E : GMat F) (vars : GMat (Aff F)) (mm nn pp : ℕ) :
    List ℕ → GMat (Aff F) → Except Err (GMat (Aff F))
  | [], sol => .ok sol
  | co :: rest, sol =>
    match solveCol E vars mm nn pp co sol with
    | .error e => .error e
    | .ok sol1 => solveCols E vars mm nn pp rest sol1

/-- matrix::solve (lines 926-1016): syntax checks, augmented matrix,
elimination, back substitution.  The solution grid starts as the n x p
zero matrix (matrix ctor, lines 75-80). -/
def GMat.solve (A : GMat F) (vars : GMat (Aff F)) (rhs : GMat F)
    (algo : SolveAlgo) (isNum : F → Bool) : Except Err (GMat (Aff F)) :=
  let mm := A.row
  let nn := A.col
  let pp := rhs.col
  if rhs.row ≠ mm ∨ vars.row ≠ nn ∨ vars.col ≠ pp then .error Err.dimensionMismatch
  else if !((List.range nn).all fun ro => (List.range pp).all fun co =>
      (vars.getE ro co).isSymbol) then .error Err.invalidArgument
  else
    let E := solveElimAug A rhs algo isNum
    let sol0 : GMat (Aff F) := ⟨nn, pp, List.replicate (nn * pp) (Aff.ofConst 0)⟩
    solveCols E vars mm nn pp (List.range pp) sol0

/-- Identity right hand side built by matrix::inverse (lines 890-893): a
row x col zero matrix whose diagonal is set to 1. -/
def inverseRhs (A : GMat F) : GMat F :=
  ⟨A.row, A.col, (List.range (A.row * A.col)).map fun i =>
    if i / A.col = i % A.col then 1 else 0⟩

/-- Dummy variable grid built by matrix::inverse (lines 896-901): freshly
generated anonymous symbols, modelled as the globally numbered distinct
symbols var 0, var 1, ... in row-major order. -/
def inverseVars (A : GMat F) : GMat (Aff F) :=
  ⟨A.row, A.col, (List.range (A.row * A.col)).map Aff.var⟩

/-- matrix::inverse (lines 882-913): square check, then solve
A · A⁻¹ = Id against the grid of freshly generated symbols; a solve
failure whose message is the inconsistent-linear-system one is translated
into the singular-matrix error (lines 906-911), everything else
propagates unchanged. -/
def GMat.inverse (A : GMat F) (isNum : F → Bool) : Except Err (GMat (Aff F)) :=
  if A.row ≠ A.col then .error Err.nonSquareMatrix
  else
    match A.solve (inverseVars A) (inverseRhs A) SolveAlgo.automatic isNum with
    | .error Err.inconsistentSystem => .error Err.singularMatrix
    | .error e => .error e
    | .ok sol => .ok sol

/-- Predicate of matrix::solve's inconsistency test (lines 992-996): the
coefficient part (first nn columns) of row r of the eliminated augmented
matrix consists only of zeros. -/
def zeroCoeffRow (E : GMat F) (nn r : ℕ) : Prop :=
  ∀ c < nn, E.getE r c = 0

instance (E : GMat F) (nn r : ℕ) : Decidable (zeroCoeffRow E nn r) :=
  inferInstanceAs (Decidable (∀ c < nn, E.getE r c = 0))

end SolveDef

section PowTraceCmp

variable {F : Type} [LinearOrderedField F] [DecidableEq F]

/-- Binary-exponentiation loop of matrix::pow (lines 606-618): b runs
through powers of two; whenever the corresponding bit of k is set (the
remainder r = mod(k,b) after doubling b is nonzero) it is cleared from k
and the current power-of-two factor is multiplied into the result; the
factor is squared while b has not exhausted k.  The loop exit condition is
the source's compare b ≤ k; fuel bounds the iteration count (k+1 at the
initial call suffices, since b starts at 1 and doubles every round) so
that the recursion is structural. -/
def powLoop : ℕ → ℕ → ℕ → GMat F → GMat F → GMat F
  | 0, _, _, _, result => result
  | fuel + 1, k, b, prod, result =>
    if b ≤ k then
      let b2 := 2 * b
      let r := k % b2
      let kr := if r ≠ 0 then k - r else k
      let result1 := if r ≠ 0 then result.mul prod else result
      let prod1 := if b2 ≤ kr then prod.mul prod else prod
      powLoop fuel kr b2 prod1 result1
    else result

/-- Plain iterated power of a square matrix, the reference value the
binary exponentiation of matrix::pow is verified against. -/
def matPowIter (A : GMat F) : ℕ → GMat F
  | 0 => identityG A.row
  | k + 1 => (matPowIter A k).mul A

/-- matrix::pow (lines 585-623) at an exact integer exponent (the only
exponents the source handles; any other exponent throws the
unsupported-exponent error, line 622).  A negative exponent first computes
inverse(A); a successful inverse of a square matrix assigns no free
parameters, so each of its solution cells is a constant expression and
taking the constant part embeds the solution grid back into F. -/
def GMat.powG (A : GMat F) (expn : Int) (isNum : F → Bool) : Except Err (GMat F) :=
  if A.col ≠ A.row then .error Err.nonSquareMatrix
  else
    let k : ℕ := expn.natAbs
    let prodE : Except Err (GMat F) :=
      if expn < 0 then
        (A.inverse isNum).map (fun s => ⟨s.row, s.col, s.m.map Aff.const⟩)
      else .ok A
    match prodE with
    | .error e => .error e
    | .ok prod => .ok (powLoop (k + 1) k 1 prod (identityG A.row))

/-- matrix::trace (lines 809-823): square check, then the sum of the
diagonal elements (normalization and expansion are the identity here). -/
def GMat.trace (A : GMat F) : Except Err F :=
  if A.row ≠ A.col then .error Err.nonSquareMatrix
  else .ok ((List.range A.col).foldl (fun t r => t + A.getE r r) 0)

/-- Model of ex::compare of the expression collaborator on values of F:
a canonical total order, returning -1, 0 or 1, with 0 exactly on equal
values. -/
def cmpF (x y : F) : Int :=
  if x < y then -1 else if y < x then 1 else 0

/-- Element loop of matrix::compare_same_type (lines 251-257): compare the
entries in row-major order and return the first nonzero comparison, else
0.  Both backing vectors are traversed in the flat order the source's
(r,c) double loop visits them in. -/
def cmpEntries : List F → List F → Int
  | a :: as, b :: bs =>
    let cv := cmpF a b
    if cv ≠ 0 then cv else cmpEntries as bs
  | _, _ => 0

/-- matrix::compare_same_type (lines 237-260): order first by row count,
then by column count, and for equal shapes by the row-major element-wise
comparison. -/
def GMat.compare_same_type (A B : GMat F) : Int :=
  if A.row ≠ B.row then (if A.row < B.row then -1 else 1)
  else if A.col ≠ B.col then (if A.col < B.col then -1 else 1)
  else cmpEntries A.m B.m

end PowTraceCmp

section DetTyped

variable {F : Type} [Field F] [DecidableEq F]

/-- Symbolic pivot search of matrix::pivot (lines 1387-1389) on the first
column of the active block: the first row whose entry is nonzero
(expand() is the identity here), none when the whole column vanishes (the
degenerate case the source signals with -1). -/
def findPivT {m : ℕ} (v : Fin m → F) : Option (Fin m) :=
  (List.finRange m).find? fun r => decide (v r ≠ 0)

/-- matrix::gauss_elimination in determinant mode (lines 1151-1194)
together with the determinant assembly of matrix::determinant's gauss
branch (lines 729-739), written as the recursion on the active
not-yet-eliminated block that the r1/r0 loop performs.  One column step:
pivot (returning 0 when the column is degenerate, the early return of line
1165 with sign 0), swap the pivot row up (sign flip when a swap happened,
line 1169), eliminate each lower row r2 by subtracting
piv = m[r2][0]/m[0][0] times the pivot row whenever m[r2][0] is nonzero
(lines 1170-1179; the zero fills of lines 1181-1187 delete exactly the
entries outside the active block and the diagonal), and recurse on the
block of rows and columns 1.. ; the determinant is the product of the
swap signs and the diagonal pivots. -/
def gaussDetAux : (k : ℕ) → Matrix (Fin (k + 1)) (Fin (k + 1)) F → F
  | 0, M => M 0 0
  | k + 1, M =>
    match findPivT (fun r => M r 0) with
    | none => 0
    | some i =>
      let M1 := Matrix.of fun r c => M (Equiv.swap 0 i r) c
      let s : F := if i = 0 then 1 else -1
      let B : Matrix (Fin (k + 1)) (Fin (k + 1)) F := Matrix.of fun r c =>
        if M1 r.succ 0 = 0 then M1 r.succ c.succ
        else M1 r.succ c.succ - M1 r.succ 0 / M1 0 0 * M1 0 c.succ
      s * (M1 0 0 * gaussDetAux k B)

/-- matrix::fraction_free_elimination in determinant mode (lines
1254-1367) together with the determinant assembly of
matrix::determinant's bareiss branch (lines 740-748), as the recursion on
the active block; d is the previous step's divisor (divisor_n, starting at
1).  In this model to_rational splits a value into numerator itself and
denominator 1, so the denominator grid stays all ones and only the
numerator recursion remains: the new entry is the two-by-two cross product
divided exactly by d (lines 1328-1338); the determinant is the product of
the swap signs with the single surviving bottom-right entry. -/
def bareissAux : (k : ℕ) → F → Matrix (Fin (k + 1)) (Fin (k + 1)) F → F
  | 0, _, M => M 0 0
  | k + 1, d, M =>
    match findPivT (fun r => M r 0) with
    | none => 0
    | some i =>
      let M1 := Matrix.of fun r c => M (Equiv.swap 0 i r) c
      let s : F := if i = 0 then 1 else -1
      let B : Matrix (Fin (k + 1)) (Fin (k + 1)) F := Matrix.of fun r c =>
        (M1 0 0 * M1 r.succ c.succ - M1 r.succ 0 * M1 0 c.succ) / d
      s * bareissAux k (M1 0 0) B

/-- matrix::division_free_elimination in determinant mode (lines
1205-1241), as the recursion on the active block; returns the sign
together with the diagonal of the eliminated matrix (the pivots, ending in
the bottom-right entry), or none in the degenerate case (sign 0). -/
def divfreeAux : (k : ℕ) → Matrix (Fin (k + 1)) (Fin (k + 1)) F → Option (F × List F)
  | 0, M => some (1, [M 0 0])
  | k + 1, M =>
    match findPivT (fun r => M r 0) with
    | none => none
    | some i =>
      let M1 := Matrix.of fun r c => M (Equiv.swap 0 i r) c
      let s : F := if i = 0 then 1 else -1
      let B : Matrix (Fin (k + 1)) (Fin (k + 1)) F := Matrix.of fun r c =>
        M1 0 0 * M1 r.succ c.succ - M1 r.succ 0 * M1 0 c.succ
      (divfreeAux k B).map fun pr => (s * pr.1, M1 0 0 :: pr.2)

/-- Determinant assembly of matrix::determinant's divfree branch (lines
749-761): 0 on a degenerate sign, otherwise the bottom-right entry of the
eliminated matrix divided by the accumulated bogus slag, namely by the
d-th diagonal entry (row-d-2) times for each d, then the sign. -/
def divfreeDetT {k : ℕ} (M : Matrix (Fin (k + 1)) (Fin (k + 1)) F) : F :=
  match divfreeAux k M with
  | none => 0
  | some pr =>
    let diag := pr.2
    let det0 := diag.getLast?.getD 0
    pr.1 * ((List.range (k + 1 - 2)).foldl (fun det d =>
      (List.range (k + 1 - d - 2)).foldl (fun det _ => det / diag.getD d 0) det) det0)

/-- Minor recurrence of matrix::determinant_minor (lines 1076-1136): the
value stored for the row subset v (here a tuple of j+1 row indices, the
source's Pkey) at the column step where n-(j+1) columns are already
processed.  A singleton subset holds the matrix entry in the last column
(the initialisation of lines 1089-1093); a larger subset holds the
alternating-sign sum over its rows r of entry(r,c) times the value stored
for the subset without r (the source's A[Mkey], a map lookup whose absent
keys default to 0, matching the skipped zero entries of lines 1105-1106
and the dropped zero minors of lines 1121-1122), with c the leftmost
unprocessed column.  The source computes these values bottom-up, keeping
the maps A and B of one column step each; the recursion here is the
recurrence those maps tabulate. -/
def minorExpand {k : ℕ} (M : Matrix (Fin (k + 1)) (Fin (k + 1)) F) :
    (j : ℕ) → (Fin (j + 1) → Fin (k + 1)) → F
  | 0, v => M (v 0) ⟨k, Nat.lt_succ_self k⟩
  | j + 1, v =>
    let c : Fin (k + 1) := ⟨k - (j + 1), by omega⟩
    ∑ i : Fin (j + 2), (-1) ^ (i : ℕ) *
      (if M (v i) c = 0 then 0 else M (v i) c * minorExpand M j (fun t => v (i.succAbove t)))

/-- matrix::determinant_minor (lines 1031-1139): closed cofactor formulas
for dimensions 1, 2 and 3 (lines 1035-1042, with flat index i naming entry
(i/n, i%n)), the memoized Laplace expansion for larger dimensions. -/
def detMinorT : {k : ℕ} → Matrix (Fin (k + 1)) (Fin (k + 1)) F → F
  | 0, M => M 0 0
  | 1, M => M 0 0 * M 1 1 - M 1 0 * M 0 1
  | 2, M =>
    M 0 0 * M 1 1 * M 2 2 - M 0 0 * M 1 2 * M 2 1 -
    M 0 1 * M 1 0 * M 2 2 + M 0 2 * M 1 0 * M 2 1 +
    M 0 1 * M 1 2 * M 2 0 - M 0 2 * M 1 1 * M 2 0
  | j + 3, M => minorExpand M (j + 3) (fun r => r)

/-- Zero count of a column, gathered by the presort of
matrix::determinant's laplace branch (lines 771-778). -/
def zeroCount {k : ℕ} (M : Matrix (Fin (k + 1)) (Fin (k + 1)) F) (c : Fin (k + 1)) : ℕ :=
  ((List.finRange (k + 1)).filter fun r => decide (M r c = 0)).length

/-- Column presort permutation of matrix::determinant's laplace branch
(lines 770-783): the columns ordered by the lexicographic sort of the
pairs (number of zeros in the column, column index) — std::sort on
pair<unsigned,unsigned>; the pairs are distinct, so the sorted arrangement
and hence the permutation is unique and position c of the sorted pair
vector holds column preSortPerm M c. -/
def preSortPerm {k : ℕ} (M : Matrix (Fin (k + 1)) (Fin (k + 1)) F) :
    Equiv.Perm (Fin (k + 1)) :=
  Tuple.sort (fun c => toLex ((zeroCount M c, c.val) : ℕ × ℕ))

/-- Modelled from the spec: permutation_sign (utils.h, which is not under
src/) — the sign of the permutation given by a sequence, which the spec
(section 4.4) says is obtained via the sequence's inversion count. -/
def permutation_sign {m : ℕ} (σ : Equiv.Perm (Fin m)) : ℤ :=
  Equiv.Perm.sign σ

/-- Laplace branch of matrix::determinant (lines 762-798): presort the
columns, fold the presort permutation's sign in, and expand the presorted
matrix by minors (the final normal()/expand() being the identity here). -/
def laplaceDetT {k : ℕ} (M : Matrix (Fin (k + 1)) (Fin (k + 1)) F) : F :=
  let σ := preSortPerm M
  ((permutation_sign σ : ℤ) : F) * detMinorT (Matrix.of fun r c => M r (σ c))

/-- Statistics pass of matrix::determinant (lines 688-702) over the
entries: the confirmed-nonzero count (sparse_count) and whether every
entry is a plain number (numeric_flag, queried through the collaborator
predicate isNum since to_rational of a field value is the value itself).
The normal_flag of the source only switches between normal() and expand()
on the result, both the identity here. -/
def detStats {k : ℕ} (M : Matrix (Fin (k + 1)) (Fin (k + 1)) F) (isNum : F → Bool) :
    ℕ × Bool :=
  let entries := (List.finRange (k + 1)).flatMap fun r =>
    (List.finRange (k + 1)).map fun c => M r c
  ((entries.filter fun x => decide (x ≠ 0)).length, entries.all isNum)

/-- Heuristic algorithm choice of matrix::determinant (lines 705-716):
laplace is the default guess, bareiss when the matrix has more than 3 rows
and at most rows*cols/5 nonzero entries, and a purely numeric matrix
overrides any prior decision to gauss. -/
def detAlgoChoice (algo : DetAlgo) (rows cols sparse_count : ℕ) (numeric_flag : Bool) :
    DetAlgo :=
  if algo = DetAlgo.automatic then
    let a := DetAlgo.laplace
    let a := if rows > 3 ∧ 5 * sparse_count ≤ rows * cols then DetAlgo.bareiss else a
    if numeric_flag then DetAlgo.gauss else a
  else algo

/-- matrix::determinant (lines 682-800) on a square matrix: gather the
statistics, resolve the automatic algorithm choice, trap the trivial 1x1
case (lines 719-725, normal() and expand() being the identity), and
dispatch to the chosen algorithm. -/
def determinantT {k : ℕ} (M : Matrix (Fin (k + 1)) (Fin (k + 1)) F) (isNum : F → Bool)
    (algo : DetAlgo) : F :=
  let stats := detStats M isNum
  let algo1 := detAlgoChoice algo (k + 1) (k + 1) stats.1 stats.2
  if k = 0 then M 0 0
  else
    match algo1 with
    | DetAlgo.gauss => gaussDetAux k M
    | DetAlgo.bareiss => bareissAux k 1 M
    | DetAlgo.divfree => divfreeDetT M
    | _ => laplaceDetT M

end DetTyped

/-! Theorems.  Helper lemmas come first; each claim is settled by the one
theorem carrying its claim id in the doc comment. -/

section CmpLemmas

variable {F : Type} [LinearOrderedField F] [DecidableEq F]

theorem cmpF_eq_zero_iff (x y : F) : cmpF x y = 0 ↔ x = y := by
  unfold cmpF
  rcases lt_trichotomy x y with h | h | h
  · simp only [if_pos h]
    constructor
    · intro hh; omega
    · intro hh; exact absurd hh h.ne
  · simp [h, lt_irrefl]
  · rw [if_neg (not_lt_of_gt h), if_pos h]
    constructor
    · intro hh; omega
    · intro hh; exact absurd hh.symm h.ne

theorem cmpEntries_eq_zero_iff :
    ∀ l1 l2 : List F, l1.length = l2.length → (cmpEntries l1 l2 = 0 ↔ l1 = l2)
  | [], [], _ => by simp [cmpEntries]
  | a :: as, b :: bs, h => by
    simp only [cmpEntries]
    by_cases hc : cmpF a b = 0
    · have hab : a = b := (cmpF_eq_zero_iff a b).mp hc
      subst hab
      have ih := cmpEntries_eq_zero_iff as bs (by simpa using h)
      simp [hc, ih]
    · have hab : a ≠ b := fun e => hc ((cmpF_eq_zero_iff a b).mpr e)
      simp [hc, hab]
  | [], _ :: _, h => by simp at h
  | _ :: _, [], h => by simp at h

omit [DecidableEq F] in
theorem gmat_entry_ext_iff (A B : GMat F)
    (hr : A.row = B.row) (hc : A.col = B.col)
    (hA : A.m.length = A.row * A.col) (hB : B.m.length = B.row * B.col) :
    (∀ r < A.row, ∀ c < A.col, A.getE r c = B.getE r c) ↔ A.m = B.m := by
  constructor
  · intro h
    apply List.ext_getElem (by rw [hA, hB, hr, hc])
    intro i h1 h2
    have hcol : 0 < A.col := by
      rcases Nat.eq_zero_or_pos A.col with h0 | h0
      · rw [hA, h0, Nat.mul_zero] at h1; omega
      · exact h0
    have hi : i / A.col * A.col + i % A.col = i := by
      rw [Nat.mul_comm]; exact Nat.div_add_mod i A.col
    have hr1 : i / A.col < A.row := Nat.div_lt_of_lt_mul (by rw [Nat.mul_comm, ← hA]; exact h1)
    have hcc : i % A.col < A.col := Nat.mod_lt _ hcol
    have hE := h (i / A.col) hr1 (i % A.col) hcc
    unfold GMat.getE at hE
    rw [← hc] at hE
    calc A.m[i] = A.m.getD i 0 := (List.getD_eq_getElem _ _ h1).symm
      _ = A.m.getD (i / A.col * A.col + i % A.col) 0 := by rw [hi]
      _ = B.m.getD (i / A.col * A.col + i % A.col) 0 := hE
      _ = B.m.getD i 0 := by rw [hi]
      _ = B.m[i] := List.getD_eq_getElem _ _ h2
  · intro h r _ c _
    unfold GMat.getE
    rw [h, hc]

end CmpLemmas

section EasyClaims

variable {F : Type} [LinearOrderedField F] [DecidableEq F]

/-- C2: pivot(row0, col, symbolic=false) in numeric mode is claimed to
return (and swap into place) the row in [row0, R) whose entry in column
col has the largest absolute numeric magnitude, ties going to the
earliest row.  The code does not: on the 2x1 matrix [1, 2] the largest
absolute value in column 0 below row 0 is in row 1, so pivoting should
swap rows 0 and 1 and return 1, but the scan's final line k = kmax (with
kmax = row after the while loop) executes whenever mmax is nonzero, so
the function returns -1 — the all-zero degeneracy signal — and performs
no swap, contradicting its own documentation (lines 1370-1381). -/
theorem pivot_numeric_mode_wrong_on_nonzero_column :
    GMat.pivot (⟨2, 1, [(1 : ℚ), 2]⟩ : GMat ℚ) 0 0 false
      = (-1, (⟨2, 1, [(1 : ℚ), 2]⟩ : GMat ℚ)) := by
  decide

/-- C7: solving [[1,1],[1,1]]·[x,y]ᵗ = [2,2]ᵗ succeeds: the unknown x is
expressed in terms of the other unknown as 2 - y, and the unconstrained
unknown y is returned as its own caller-supplied symbol (here the symbols
are var 0 for x and var 1 for y), a free parameter. -/
theorem solve_ones_system_succeeds_with_free_parameter :
    GMat.solve (⟨2, 2, [(1 : ℚ), 1, 1, 1]⟩ : GMat ℚ)
        ⟨2, 1, [Aff.var 0, Aff.var 1]⟩ ⟨2, 1, [(2 : ℚ), 2]⟩
        SolveAlgo.automatic (fun _ => true)
      = .ok ⟨2, 1, [Aff.sub (Aff.ofConst 2) (Aff.var 1), Aff.var 1]⟩ := by
  norm_num [GMat.solve, solveElimAug, solveAug, solveAlgoChoice, GMat.gauss_elimination,
    gaussElimLoop, gaussElimStep, gaussRowOp, GMat.pivot, pivotFirstNonzero, GMat.swapRows,
    fnzOf, scanRows, solveCol, solveCols, GMat.getE, GMat.setE, Aff.sub, Aff.add, Aff.neg,
    Aff.smul, Aff.divBy, Aff.ofConst, Aff.var, Aff.isSymbol, Aff.addCoeffs,
    List.range', List.range, List.range.loop, List.find?, List.foldl, List.all,
    List.replicate, List.set]

/-- C9: trace on a non-square matrix always fails with the
matrix-not-square error and never returns a value; the same error
constructor is the one inverse and pow produce on non-square input. -/
theorem trace_nonsquare_fails_nonSquareMatrix (A : GMat F) (isNum : F → Bool) :
    (A.trace = .error Err.nonSquareMatrix ↔ A.row ≠ A.col)
    ∧ (A.row ≠ A.col →
        A.inverse isNum = .error Err.nonSquareMatrix
        ∧ A.powG 1 isNum = .error Err.nonSquareMatrix) := by
  constructor
  · by_cases h : A.row = A.col
    · simp [GMat.trace, h]
    · simp [GMat.trace, h]
  · intro h
    have h2 : A.col ≠ A.row := fun e => h e.symm
    exact ⟨by simp [GMat.inverse, h], by simp [GMat.powG, h2]⟩

/-- Witness for C9 at a concrete non-square input. -/
theorem trace_nonsquare_fails_nonSquareMatrix_witness :
    (⟨1, 2, [(0 : ℚ), 0]⟩ : GMat ℚ).trace = .error Err.nonSquareMatrix :=
  (trace_nonsquare_fails_nonSquareMatrix _ (fun _ => true)).1.mpr (by decide)

/-- C10: the canonical matrix comparison is total over matrices of any
shapes: it orders first by row count, then by column count, and only for
equal shapes by row-major element-wise comparison; it returns 0 (equal)
exactly when both dimensions and every corresponding entry agree. -/
theorem compare_same_type_canonical_order (A B : GMat F)
    (hA : A.m.length = A.row * A.col) (hB : B.m.length = B.row * B.col) :
    (A.row ≠ B.row → A.compare_same_type B = if A.row < B.row then -1 else 1)
    ∧ (A.row = B.row → A.col ≠ B.col →
        A.compare_same_type B = if A.col < B.col then -1 else 1)
    ∧ (A.compare_same_type B = 0 ↔
        A.row = B.row ∧ A.col = B.col ∧ ∀ r < A.row, ∀ c < A.col, A.getE r c = B.getE r c) := by
  refine ⟨fun h => by simp [GMat.compare_same_type, h], fun hr hc => by simp [GMat.compare_same_type, hr, hc], ?_⟩
  by_cases hr : A.row = B.row
  · by_cases hc : A.col = B.col
    · have hlen : A.m.length = B.m.length := by rw [hA, hB, hr, hc]
      rw [GMat.compare_same_type, if_neg (not_not_intro hr), if_neg (not_not_intro hc)]
      rw [cmpEntries_eq_zero_iff A.m B.m hlen, ← gmat_entry_ext_iff A B hr hc hA hB]
      simp [hr, hc]
    · rw [GMat.compare_same_type, if_neg (not_not_intro hr), if_pos hc]
      constructor
      · intro hh
        split at hh <;> omega
      · intro hh; exact absurd hh.2.1 hc
  · rw [GMat.compare_same_type, if_pos hr]
    constructor
    · intro hh
      split at hh <;> omega
    · intro hh; exact absurd hh.1 hr

/-- Witness for C10 at concrete inputs: a shape comparison and an
entrywise equality. -/
theorem compare_same_type_canonical_order_witness :
    (⟨1, 2, [(1 : ℚ), 2]⟩ : GMat ℚ).compare_same_type ⟨2, 1, [1, 2]⟩ = -1
    ∧ (⟨1, 2, [(1 : ℚ), 2]⟩ : GMat ℚ).compare_same_type ⟨1, 2, [1, 2]⟩ = 0 := by
  constructor
  · have h := (compare_same_type_canonical_order (⟨1, 2, [(1 : ℚ), 2]⟩ : GMat ℚ)
      ⟨2, 1, [1, 2]⟩ (by decide) (by decide)).1 (by decide)
    simpa using h
  · exact (compare_same_type_canonical_order (⟨1, 2, [(1 : ℚ), 2]⟩ : GMat ℚ)
      ⟨1, 2, [1, 2]⟩ (by decide) (by decide)).2.2.mpr (by decide)

/-- C4: inverse on a square matrix whose solve step raises the
inconsistent-system error raises the singular-matrix error instead, and
every other failure arising inside inverse, as well as a successful
solution, propagates to the caller unchanged. -/
theorem inverse_translates_only_inconsistent (A : GMat F) (isNum : F → Bool)
    (h : A.row = A.col) :
    (A.solve (inverseVars A) (inverseRhs A) SolveAlgo.automatic isNum
        = .error Err.inconsistentSystem → A.inverse isNum = .error Err.singularMatrix)
    ∧ (∀ e, e ≠ Err.inconsistentSystem →
        A.solve (inverseVars A) (inverseRhs A) SolveAlgo.automatic isNum = .error e →
        A.inverse isNum = .error e)
    ∧ (∀ s, A.solve (inverseVars A) (inverseRhs A) SolveAlgo.automatic isNum = .ok s →
        A.inverse isNum = .ok s) := by
  refine ⟨fun hs => ?_, fun e he hs => ?_, fun s hs => ?_⟩
  · rw [GMat.inverse, if_neg (by omega), hs]
  · rw [GMat.inverse, if_neg (by omega), hs]
    cases e <;> simp_all
  · rw [GMat.inverse, if_neg (by omega), hs]

/-- Witness for C4: the singular 1x1 zero matrix, whose solve step is
inconsistent, and the invertible matrix [[1,2],[3,4]], whose solve step
succeeds. -/
theorem inverse_translates_only_inconsistent_witness :
    (⟨1, 1, [(0 : ℚ)]⟩ : GMat ℚ).inverse (fun _ => true) = .error Err.singularMatrix := by
  exact (inverse_translates_only_inconsistent (⟨1, 1, [(0 : ℚ)]⟩ : GMat ℚ)
    (fun _ => true) (by decide)).1 (by decide)

end EasyClaims

section SolveClaims

variable {F : Type} [LinearOrderedField F] [DecidableEq F]

theorem fnzOf_gt_iff (E : GMat F) (nn r : ℕ) :
    fnzOf E nn r > nn ↔ zeroCoeffRow E nn r := by
  unfold fnzOf
  cases hfind : (List.range nn).find? (fun c => decide (E.getE r c ≠ 0)) with
  | none =>
    simp only [gt_iff_lt, Nat.lt_succ_self, true_iff]
    intro c hc
    have := List.find?_eq_none.mp hfind c (List.mem_range.mpr hc)
    simpa using this
  | some c =>
    have hmem := List.mem_range.mp (List.mem_of_find?_eq_some hfind)
    have hval : E.getE r c ≠ 0 := by simpa using List.find?_some hfind
    simp only [gt_iff_lt]
    constructor
    · omega
    · intro hz
      exact absurd (hz c hmem) hval

theorem scanRows_error_iff (E : GMat F) (vars : GMat (Aff F)) (nn pp co : ℕ) :
    ∀ (rc : ℕ) (sol : GMat (Aff F)) (las : ℕ),
      (scanRows E vars nn pp co rc sol las = .error Err.inconsistentSystem ↔
        ∃ r < rc, zeroCoeffRow E nn r ∧ E.getE r (nn + co) ≠ 0)
      ∧ (∀ e, scanRows E vars nn pp co rc sol las = .error e → e = Err.inconsistentSystem)
  | 0, sol, las => by simp [scanRows]
  | rc + 1, sol, las => by
    by_cases h1 : fnzOf E nn rc > nn
    · by_cases h2 : E.getE rc (nn + co) ≠ 0
      · constructor
        · simp only [scanRows, if_pos h1, if_pos h2, true_iff]
          exact ⟨rc, Nat.lt_succ_self rc, (fnzOf_gt_iff E nn rc).mp h1, h2⟩
        · intro e he
          simp only [scanRows, if_pos h1, if_pos h2, Except.error.injEq] at he
          exact he.symm
      · have ih := scanRows_error_iff E vars nn pp co rc sol las
        constructor
        · simp only [scanRows, if_pos h1, if_neg h2]
          rw [ih.1]
          constructor
          · rintro ⟨r, hr, hz, hn⟩; exact ⟨r, Nat.lt_succ_of_lt hr, hz, hn⟩
          · rintro ⟨r, hr, hz, hn⟩
            refine ⟨r, ?_, hz, hn⟩
            rcases Nat.lt_succ_iff_lt_or_eq.mp hr with h | h
            · exact h
            · subst h; exact absurd hn h2
        · intro e he
          simp only [scanRows, if_pos h1, if_neg h2] at he
          exact (scanRows_error_iff E vars nn pp co rc sol las).2 e he
    · have hz : ¬ zeroCoeffRow E nn rc := fun hzz => h1 ((fnzOf_gt_iff E nn rc).mpr hzz)
      constructor
      · simp only [scanRows, if_neg h1]
        rw [(scanRows_error_iff E vars nn pp co rc _ _).1]
        constructor
        · rintro ⟨r, hr, hzz, hn⟩; exact ⟨r, Nat.lt_succ_of_lt hr, hzz, hn⟩
        · rintro ⟨r, hr, hzz, hn⟩
          refine ⟨r, ?_, hzz, hn⟩
          rcases Nat.lt_succ_iff_lt_or_eq.mp hr with h | h
          · exact h
          · subst h; exact absurd hzz hz
      · intro e he
        simp only [scanRows, if_neg h1] at he
        exact (scanRows_error_iff E vars nn pp co rc _ _).2 e he

theorem solveCol_error_iff (E : GMat F) (vars : GMat (Aff F)) (mm nn pp co : ℕ)
    (sol : GMat (Aff F)) :
    (solveCol E vars mm nn pp co sol = .error Err.inconsistentSystem ↔
      ∃ r < mm, zeroCoeffRow E nn r ∧ E.getE r (nn + co) ≠ 0)
    ∧ (∀ e, solveCol E vars mm nn pp co sol = .error e → e = Err.inconsistentSystem) := by
  unfold solveCol
  cases hs : scanRows E vars nn pp co mm sol (nn + 1) with
  | error e =>
    have he := (scanRows_error_iff E vars nn pp co mm sol (nn + 1)).2 e hs
    subst he
    simp only [Except.error.injEq]
    constructor
    · simp only [true_iff]
      exact ((scanRows_error_iff E vars nn pp co mm sol (nn + 1)).1).mp hs
    · intro e he; exact he.symm
  | ok r =>
    simp only [reduceCtorEq, false_iff, not_exists]
    constructor
    · intro r1 hr1
      have hcontra := ((scanRows_error_iff E vars nn pp co mm sol (nn + 1)).1).mpr
        ⟨r1, hr1.1, hr1.2⟩
      rw [hs] at hcontra
      exact absurd hcontra (by simp)
    · intro e he; exact absurd he (by simp)

theorem solveCols_error_iff (E : GMat F) (vars : GMat (Aff F)) (mm nn pp : ℕ) :
    ∀ (cos : List ℕ) (sol : GMat (Aff F)),
      (solveCols E vars mm nn pp cos sol = .error Err.inconsistentSystem ↔
        ∃ co ∈ cos, ∃ r < mm, zeroCoeffRow E nn r ∧ E.getE r (nn + co) ≠ 0)
      ∧ (∀ e, solveCols E vars mm nn pp cos sol = .error e → e = Err.inconsistentSystem)
  | [], sol => by simp [solveCols]
  | co :: rest, sol => by
    rw [solveCols]
    cases hc : solveCol E vars mm nn pp co sol with
    | error e =>
      have he := (solveCol_error_iff E vars mm nn pp co sol).2 e hc
      subst he
      constructor
      · simp only [Except.error.injEq, true_iff]
        exact ⟨co, List.mem_cons_self co rest,
          ((solveCol_error_iff E vars mm nn pp co sol).1).mp hc⟩
      · intro e he; simpa using he.symm
    | ok sol1 =>
      have hno : ¬ ∃ r < mm, zeroCoeffRow E nn r ∧ E.getE r (nn + co) ≠ 0 := by
        intro hcontra
        have := ((solveCol_error_iff E vars mm nn pp co sol).1).mpr hcontra
        rw [hc] at this
        exact absurd this (by simp)
      have ih := solveCols_error_iff E vars mm nn pp rest sol1
      constructor
      · rw [ih.1]
        constructor
        · rintro ⟨co1, hmem, hbad⟩; exact ⟨co1, List.mem_cons_of_mem co hmem, hbad⟩
        · rintro ⟨co1, hmem, hbad⟩
          rcases List.mem_cons.mp hmem with h | h
          · subst h; exact absurd hbad hno
          · exact ⟨co1, h, hbad⟩
      · exact ih.2

/-- C3: solve raises the inconsistent-system error exactly when the
back-substitution scan encounters a row whose coefficient part (the first
N = cols columns of the eliminated augmented matrix) is all zero while the
augmented cell for the current right-hand-side column is nonzero; on any
such row it fails rather than returning a value, and (once the syntax
checks have passed) no other error can be raised. -/
theorem solve_inconsistent_iff_zero_row_nonzero_rhs (A : GMat F) (vars : GMat (Aff F))
    (rhs : GMat F) (algo : SolveAlgo) (isNum : F → Bool)
    (hdim : rhs.row = A.row ∧ vars.row = A.col ∧ vars.col = rhs.col)
    (hsym : ∀ ro < A.col, ∀ co < rhs.col, (vars.getE ro co).isSymbol = true) :
    (A.solve vars rhs algo isNum = .error Err.inconsistentSystem ↔
      ∃ co < rhs.col, ∃ r < A.row,
        zeroCoeffRow (solveElimAug A rhs algo isNum) A.col r
        ∧ (solveElimAug A rhs algo isNum).getE r (A.col + co) ≠ 0)
    ∧ (∀ e, A.solve vars rhs algo isNum = .error e → e = Err.inconsistentSystem) := by
  have hall : ((List.range A.col).all fun ro => (List.range rhs.col).all fun co =>
      (vars.getE ro co).isSymbol) = true := by
    rw [List.all_eq_true]
    intro ro hro
    rw [List.all_eq_true]
    intro co hco
    exact hsym ro (List.mem_range.mp hro) co (List.mem_range.mp hco)
  rw [GMat.solve, if_neg (by omega), hall]
  simp only [Bool.not_true, Bool.false_eq_true, if_false]
  have h := solveCols_error_iff (solveElimAug A rhs algo isNum) vars A.row A.col rhs.col
    (List.range rhs.col) ⟨A.col, rhs.col, List.replicate (A.col * rhs.col) (Aff.ofConst 0)⟩
  constructor
  · rw [h.1]
    constructor
    · rintro ⟨co, hmem, hbad⟩; exact ⟨co, List.mem_range.mp hmem, hbad⟩
    · rintro ⟨co, hco, hbad⟩; exact ⟨co, List.mem_range.mpr hco, hbad⟩
  · exact h.2

/-- Witness for C3: the 1x1 system 0·x = 1 is reported inconsistent, and
its eliminated augmented matrix [0 1] indeed has the all-zero coefficient
row with a nonzero augmented cell. -/
theorem solve_inconsistent_iff_zero_row_nonzero_rhs_witness :
    (⟨1, 1, [(0 : ℚ)]⟩ : GMat ℚ).solve ⟨1, 1, [Aff.var 0]⟩ ⟨1, 1, [(1 : ℚ)]⟩
        SolveAlgo.automatic (fun _ => true) = .error Err.inconsistentSystem := by
  refine (solve_inconsistent_iff_zero_row_nonzero_rhs (⟨1, 1, [(0 : ℚ)]⟩ : GMat ℚ)
    ⟨1, 1, [Aff.var 0]⟩ ⟨1, 1, [(1 : ℚ)]⟩ SolveAlgo.automatic (fun _ => true)
    (by exact ⟨rfl, rfl, rfl⟩) (by decide)).1.mpr ?_
  refine ⟨0, Nat.one_pos, 0, Nat.one_pos, ?_, ?_⟩
  · intro c hc
    interval_cases c
    decide
  · decide

end SolveClaims

section SelectorClaim

variable {F : Type} [Field F] [DecidableEq F]

theorem detAlgoChoice_automatic (rows cols sc : ℕ) (nf : Bool) :
    detAlgoChoice DetAlgo.automatic rows cols sc nf =
      if nf then DetAlgo.gauss
      else if rows > 3 ∧ sc ≤ rows * cols / 5 then DetAlgo.bareiss else DetAlgo.laplace := by
  unfold detAlgoChoice
  rw [if_pos rfl]
  cases nf with
  | true => simp
  | false =>
    simp only [Bool.false_eq_true, if_false]
    by_cases h : rows > 3 ∧ 5 * sc ≤ rows * cols
    · rw [if_pos h, if_pos ⟨h.1, by omega⟩]
    · rw [if_neg h, if_neg ?_]
      rintro ⟨h1, h2⟩
      exact h ⟨h1, by omega⟩

theorem detAlgoChoice_explicit (a : DetAlgo) (rows cols sc : ℕ) (nf : Bool)
    (h : a ≠ DetAlgo.automatic) : detAlgoChoice a rows cols sc nf = a := by
  unfold detAlgoChoice
  rw [if_neg h]

/-- C5: with the automatic algorithm choice, determinant computes exactly
what its heuristic policy dictates: gauss whenever every entry is a plain
number (numeric_flag of the statistics pass), otherwise fraction-free
(bareiss) when the matrix has more than 3 rows and its confirmed-nonzero
entry count is at most rows·cols/5, otherwise the laplace default; and a
1x1 matrix is handled by a direct shortcut returning its sole entry,
whatever algorithm was requested. -/
theorem determinant_automatic_policy {k : ℕ}
    (M : Matrix (Fin (k + 1)) (Fin (k + 1)) F) (isNum : F → Bool) (algo : DetAlgo) :
    (determinantT M isNum DetAlgo.automatic =
      determinantT M isNum
        (if (detStats M isNum).2 then DetAlgo.gauss
         else if k + 1 > 3 ∧ (detStats M isNum).1 ≤ (k + 1) * (k + 1) / 5 then DetAlgo.bareiss
         else DetAlgo.laplace))
    ∧ (k = 0 → determinantT M isNum algo = M 0 0) := by
  constructor
  · have hch : detAlgoChoice DetAlgo.automatic (k + 1) (k + 1)
        (detStats M isNum).1 (detStats M isNum).2 =
      detAlgoChoice
        (if (detStats M isNum).2 then DetAlgo.gauss
         else if k + 1 > 3 ∧ (detStats M isNum).1 ≤ (k + 1) * (k + 1) / 5 then DetAlgo.bareiss
         else DetAlgo.laplace)
        (k + 1) (k + 1) (detStats M isNum).1 (detStats M isNum).2 := by
      rw [detAlgoChoice_automatic]
      by_cases hn : (detStats M isNum).2
      · rw [if_pos hn, detAlgoChoice_explicit _ _ _ _ _ (by simp)]
      · rw [if_neg hn]
        by_cases hc : k + 1 > 3 ∧ (detStats M isNum).1 ≤ (k + 1) * (k + 1) / 5
        · rw [if_pos hc, detAlgoChoice_explicit _ _ _ _ _ (by simp)]
        · rw [if_neg hc, detAlgoChoice_explicit _ _ _ _ _ (by simp)]
    simp only [determinantT]
    rw [hch]
  · intro hk
    subst hk
    rw [determinantT, if_pos rfl]

/-- Witness for C5: the 1x1 shortcut at a concrete matrix. -/
theorem determinant_automatic_policy_witness :
    determinantT !![(5 : ℚ)] (fun _ => true) DetAlgo.laplace = 5 := by
  have h := (determinant_automatic_policy !![(5 : ℚ)] (fun _ => true) DetAlgo.laplace).2 rfl
  simpa using h

end SelectorClaim

section PowClaim

variable {F : Type} [LinearOrderedField F] [DecidableEq F]

omit [DecidableEq F] in
theorem list_range_map_sum (n : ℕ) (f : ℕ → F) :
    ((List.range n).map f).sum = ∑ i ∈ Finset.range n, f i := by
  induction n with
  | zero => simp
  | succ n ih =>
    rw [List.range_succ, Finset.sum_range_succ, List.map_append, List.sum_append, ih]
    simp

theorem mul_len (A B : GMat F) : (A.mul B).m.length = A.row * B.col := by
  simp [GMat.mul]

theorem getE_mul (A B : GMat F) (r c : ℕ) (hr : r < A.row) (hc : c < B.col) :
    (A.mul B).getE r c = ∑ j ∈ Finset.range A.col, A.getE r j * B.getE j c := by
  have hcpos : 0 < B.col := by omega
  have hi : r * B.col + c < A.row * B.col := by
    have h1 : r * B.col + c < (r + 1) * B.col := by
      rw [Nat.succ_mul]; omega
    exact lt_of_lt_of_le h1 (Nat.mul_le_mul_right B.col hr)
  have hdiv : (r * B.col + c) / B.col = r := by
    rw [Nat.mul_comm r B.col, Nat.mul_add_div hcpos, Nat.div_eq_of_lt hc]
    exact Nat.add_zero r
  have hmod : (r * B.col + c) % B.col = c := by
    rw [Nat.mul_comm r B.col, Nat.mul_add_mod]
    exact Nat.mod_eq_of_lt hc
  show (A.mul B).m.getD (r * (A.mul B).col + c) 0 = _
  rw [show (A.mul B).col = B.col from rfl, show (A.mul B).m =
    (List.range (A.row * B.col)).map _ from rfl]
  rw [List.getD_eq_getElem _ _ (by simpa using hi)]
  rw [List.getElem_map, List.getElem_range]
  dsimp only
  rw [hdiv, hmod, list_range_map_sum]
  apply Finset.sum_congr rfl
  intro j _
  by_cases hz : A.getE r j = 0
  · rw [if_pos hz, hz, zero_mul]
  · rw [if_neg hz]

theorem WFN_mul {N : ℕ} {A B : GMat F} (hA : WFN N A) (hB : WFN N B) :
    WFN N (A.mul B) :=
  ⟨hA.1, hB.2.1, by rw [mul_len, hA.1, hB.2.1]⟩

theorem toMatN_mul {N : ℕ} {A B : GMat F} (hA : WFN N A) (hB : WFN N B) :
    toMatN N (A.mul B) = toMatN N A * toMatN N B := by
  ext r c
  rw [Matrix.mul_apply]
  show (A.mul B).getE r c = _
  rw [getE_mul A B r c (by rw [hA.1]; exact r.isLt) (by rw [hB.2.1]; exact c.isLt), hA.2.1,
    ← Fin.sum_univ_eq_sum_range]
  rfl

omit [DecidableEq F] in
theorem identityG_WFN (N : ℕ) : WFN N (identityG (F := F) N) :=
  ⟨rfl, rfl, by simp [identityG]⟩

omit [DecidableEq F] in
theorem toMatN_identityG (N : ℕ) : toMatN N (identityG (F := F) N) = 1 := by
  ext r c
  have hN : 0 < N := r.pos
  have hi : (r : ℕ) * N + c < N * N := by
    have h1 : (r : ℕ) * N + c < ((r : ℕ) + 1) * N := by rw [Nat.succ_mul]; omega
    exact lt_of_lt_of_le h1 (Nat.mul_le_mul_right N r.isLt)
  have hdiv : ((r : ℕ) * N + c) / N = r := by
    rw [Nat.mul_comm (r : ℕ) N, Nat.mul_add_div hN, Nat.div_eq_of_lt c.isLt]
    exact Nat.add_zero _
  have hmod : ((r : ℕ) * N + c) % N = c := by
    rw [Nat.mul_comm (r : ℕ) N, Nat.mul_add_mod]
    exact Nat.mod_eq_of_lt c.isLt
  show (identityG N).getE r c = (1 : Matrix (Fin N) (Fin N) F) r c
  unfold identityG GMat.getE
  rw [List.getD_eq_getElem _ _ (by simpa using hi)]
  rw [List.getElem_map, List.getElem_range]
  dsimp only
  rw [hdiv, hmod, Matrix.one_apply]
  by_cases h : (r : ℕ) = (c : ℕ)
  · rw [if_pos h, if_pos (Fin.ext h)]
  · rw [if_neg h, if_neg (fun hh => h (congrArg Fin.val hh))]

omit [DecidableEq F] in
theorem gmat_eq_of_toMatN {N : ℕ} (X Y : GMat F) (hX : WFN N X) (hY : WFN N Y)
    (h : toMatN N X = toMatN N Y) : X = Y := by
  have hment : X.m = Y.m := by
    rw [← gmat_entry_ext_iff X Y (hX.1.trans hY.1.symm) (hX.2.1.trans hY.2.1.symm)
      (by rw [hX.2.2, hX.1, hX.2.1]) (by rw [hY.2.2, hY.1, hY.2.1])]
    intro r hr c hc
    have := congrFun (congrFun h ⟨r, hX.1 ▸ hr⟩) ⟨c, hX.2.1 ▸ hc⟩
    exact this
  obtain ⟨Xr, Xc, Xm⟩ := X
  obtain ⟨Yr, Yc, Ym⟩ := Y
  simp only at hment
  simp only [WFN] at hX hY
  simp [hment, hX.1.trans hY.1.symm, hX.2.1.trans hY.2.1.symm]

theorem matPowIter_spec {N : ℕ} (A : GMat F) (hA : WFN N A) (n : ℕ) :
    WFN N (matPowIter A n) ∧ toMatN N (matPowIter A n) = toMatN N A ^ n := by
  induction n with
  | zero =>
    rw [matPowIter, hA.1]
    exact ⟨identityG_WFN N, by rw [toMatN_identityG, pow_zero]⟩
  | succ n ih =>
    rw [matPowIter]
    exact ⟨WFN_mul ih.1 hA, by rw [toMatN_mul ih.1 hA, ih.2, pow_succ]⟩

theorem powLoop_spec {N : ℕ} :
    ∀ (fuel k b : ℕ) (prod result : GMat F), 0 < b → b ∣ k → k / b < 2 ^ fuel →
      WFN N prod → WFN N result →
      WFN N (powLoop fuel k b prod result) ∧
      toMatN N (powLoop fuel k b prod result) =
        toMatN N result * toMatN N prod ^ (k / b)
  | 0, k, b, prod, result => by
    intro hb hdvd hfuel hWp hWr
    have h0 : k / b = 0 := by simpa using hfuel
    rw [powLoop, h0, pow_zero, mul_one]
    exact ⟨hWr, rfl⟩
  | fuel + 1, k, b, prod, result => by
    intro hb hdvd hfuel hWp hWr
    by_cases hbk : b ≤ k
    · have hq1 : 1 ≤ k / b := Nat.one_le_div_iff hb |>.mpr hbk
      have hkq : b * (k / b) = k := Nat.mul_div_cancel' hdvd
      have hrq : k % (2 * b) = b * (k / b % 2) := by
        conv_lhs => rw [← hkq]
        rw [Nat.mul_comm 2 b, Nat.mul_mod_mul_left]
      have hpow : k / b < 2 * 2 ^ fuel := by
        have : (2 : ℕ) ^ (fuel + 1) = 2 * 2 ^ fuel := by ring
        omega
      rw [powLoop, if_pos hbk]
      rcases Nat.mod_two_eq_zero_or_one (k / b) with hpar | hpar
      · -- even bit: remainder r is zero, k and result unchanged, factor squared
        have hr0 : k % (2 * b) = 0 := by rw [hrq, hpar, Nat.mul_zero]
        have hq2 : 2 ≤ k / b := by omega
        have hb2k : 2 * b ≤ k := by
          have := Nat.mul_le_mul_left b hq2
          rw [hkq] at this
          omega
        simp only [hr0, ne_eq, eq_self_iff_true, not_true_eq_false, if_false]
        rw [if_pos hb2k]
        have hq2eq : 2 * (k / b / 2) = k / b := by omega
        have hdvd2 : 2 * b ∣ k := by
          refine ⟨k / b / 2, ?_⟩
          calc k = b * (k / b) := hkq.symm
            _ = b * (2 * (k / b / 2)) := by rw [hq2eq]
            _ = 2 * b * (k / b / 2) := by ring
        have hdiv2 : k / (2 * b) = k / b / 2 := by
          rw [Nat.div_div_eq_div_mul, Nat.mul_comm b 2]
        have ih := powLoop_spec fuel k (2 * b) (prod.mul prod) result (by omega) hdvd2
          (by rw [hdiv2]; omega) (WFN_mul hWp hWp) hWr
        refine ⟨ih.1, ?_⟩
        rw [ih.2, hdiv2, toMatN_mul hWp hWp, ← pow_two, ← pow_mul, hq2eq]
      · -- odd bit: remainder r is b, cleared from k, result multiplied by the factor
        obtain ⟨t, ht⟩ : ∃ t, k / b = 2 * t + 1 := ⟨k / b / 2, by omega⟩
        have hrb : k % (2 * b) = b := by rw [hrq, hpar, Nat.mul_one]
        have hk1 : k = 2 * (b * t) + b := by
          rw [← hkq, ht]; ring
        simp only [hrb, ne_eq, hb.ne', not_false_eq_true, if_true]
        rcases Nat.eq_zero_or_pos t with ht0 | ht0
        · -- last bit: k = b, afterwards k is exhausted and no squaring happens
          subst ht0
          have hkb : k = b := by omega
          have hkr0 : k - b = 0 := by omega
          rw [hkr0, if_neg (by omega)]
          have ih := powLoop_spec fuel 0 (2 * b) prod (result.mul prod) (by omega)
            (dvd_zero _) (by rw [Nat.zero_div]; exact pow_pos (by norm_num) fuel)
            hWp (WFN_mul hWr hWp)
          refine ⟨ih.1, ?_⟩
          rw [ih.2, Nat.zero_div, pow_zero, mul_one, toMatN_mul hWr hWp, ht]
          rw [Nat.mul_zero, Nat.zero_add, pow_one]
        · have hkr : k - b = 2 * b * t := by
            have h2 : 2 * b * t = 2 * (b * t) := by ring
            rw [h2]; omega
          rw [hkr, if_pos (Nat.le_mul_of_pos_right (2 * b) ht0)]
          have ih := powLoop_spec fuel (2 * b * t) (2 * b) (prod.mul prod) (result.mul prod)
            (by omega) ⟨t, rfl⟩
            (by rw [Nat.mul_div_cancel_left t (by omega : 0 < 2 * b)]; omega)
            (WFN_mul hWp hWp) (WFN_mul hWr hWp)
          refine ⟨ih.1, ?_⟩
          rw [ih.2, Nat.mul_div_cancel_left t (by omega : 0 < 2 * b),
            toMatN_mul hWp hWp, toMatN_mul hWr hWp, ht, ← pow_two, ← pow_mul,
            mul_assoc, ← pow_succ']
    · rw [powLoop, if_neg hbk]
      have h0 : k / b = 0 := Nat.div_eq_of_lt (by omega)
      rw [h0, pow_zero, mul_one]
      exact ⟨hWr, rfl⟩

theorem foldl_setE_shape {α β : Type} (f : GMat α → β → GMat α)
    (hf : ∀ s b, (f s b).row = s.row ∧ (f s b).col = s.col ∧ (f s b).m.length = s.m.length) :
    ∀ (l : List β) (s : GMat α),
      (l.foldl f s).row = s.row ∧ (l.foldl f s).col = s.col ∧
        (l.foldl f s).m.length = s.m.length
  | [], s => ⟨rfl, rfl, rfl⟩
  | b :: t, s => by
    have h1 := hf s b
    have h2 := foldl_setE_shape f hf t (f s b)
    rw [List.foldl_cons]
    exact ⟨h2.1.trans h1.1, h2.2.1.trans h1.2.1, h2.2.2.trans h1.2.2⟩

theorem scanRows_ok_shape (E : GMat F) (vars : GMat (Aff F)) (nn pp co : ℕ) :
    ∀ (rc : ℕ) (sol : GMat (Aff F)) (las : ℕ) (out : GMat (Aff F) × ℕ),
      scanRows E vars nn pp co rc sol las = .ok out →
      out.1.row = sol.row ∧ out.1.col = sol.col ∧ out.1.m.length = sol.m.length
  | 0, sol, las, out => by
    intro h
    rw [scanRows] at h
    obtain rfl := Except.ok.inj h
    exact ⟨rfl, rfl, rfl⟩
  | rc + 1, sol, las, out => by
    intro h
    rw [scanRows] at h
    by_cases h1 : fnzOf E nn rc > nn
    · rw [if_pos h1] at h
      by_cases h2 : E.getE rc (nn + co) ≠ 0
      · rw [if_pos h2] at h
        exact absurd h (by simp)
      · rw [if_neg h2] at h
        exact scanRows_ok_shape E vars nn pp co rc sol las out h
    · rw [if_neg h1] at h
      have hfold := foldl_setE_shape
        (fun (s : GMat (Aff F)) c => s.setE c co (vars.getE c co))
        (fun s b => ⟨rfl, rfl, List.length_set _ _ _⟩)
        (List.range' (fnzOf E nn rc) (las - 1 - fnzOf E nn rc)) sol
      have hrec := scanRows_ok_shape E vars nn pp co rc _ _ out h
      refine ⟨hrec.1.trans hfold.1, hrec.2.1.trans hfold.2.1, ?_⟩
      calc out.1.m.length = _ := hrec.2.2
        _ = _ := List.length_set _ _ _
        _ = sol.m.length := hfold.2.2

theorem solveCol_ok_shape (E : GMat F) (vars : GMat (Aff F)) (mm nn pp co : ℕ)
    (sol : GMat (Aff F)) (out : GMat (Aff F)) (h : solveCol E vars mm nn pp co sol = .ok out) :
    out.row = sol.row ∧ out.col = sol.col ∧ out.m.length = sol.m.length := by
  rw [solveCol] at h
  cases hs : scanRows E vars nn pp co mm sol (nn + 1) with
  | error e => rw [hs] at h; exact absurd h (by simp)
  | ok r =>
    rw [hs] at h
    obtain rfl := Except.ok.inj h
    have hscan := scanRows_ok_shape E vars nn pp co mm sol (nn + 1) r hs
    have hfold := foldl_setE_shape
      (fun (s : GMat (Aff F)) ro => s.setE ro co (vars.getE ro co))
      (fun s b => ⟨rfl, rfl, List.length_set _ _ _⟩) (List.range (r.2 - 1)) r.1
    exact ⟨hfold.1.trans hscan.1, hfold.2.1.trans hscan.2.1, hfold.2.2.trans hscan.2.2⟩

theorem solveCols_ok_shape (E : GMat F) (vars : GMat (Aff F)) (mm nn pp : ℕ) :
    ∀ (cos : List ℕ) (sol : GMat (Aff F)) (out : GMat (Aff F)),
      solveCols E vars mm nn pp cos sol = .ok out →
      out.row = sol.row ∧ out.col = sol.col ∧ out.m.length = sol.m.length
  | [], sol, out => by
    intro h
    rw [solveCols] at h
    obtain rfl := Except.ok.inj h
    exact ⟨rfl, rfl, rfl⟩
  | co :: rest, sol, out => by
    intro h
    rw [solveCols] at h
    cases hc : solveCol E vars mm nn pp co sol with
    | error e => rw [hc] at h; exact absurd h (by simp)
    | ok sol1 =>
      rw [hc] at h
      have h1 := solveCol_ok_shape E vars mm nn pp co sol sol1 hc
      have h2 := solveCols_ok_shape E vars mm nn pp rest sol1 out h
      exact ⟨h2.1.trans h1.1, h2.2.1.trans h1.2.1, h2.2.2.trans h1.2.2⟩

theorem solve_ok_shape (A : GMat F) (vars : GMat (Aff F)) (rhs : GMat F) (algo : SolveAlgo)
    (isNum : F → Bool) (s : GMat (Aff F)) (h : A.solve vars rhs algo isNum = .ok s) :
    s.row = A.col ∧ s.col = rhs.col ∧ s.m.length = A.col * rhs.col := by
  rw [GMat.solve] at h
  by_cases h1 : rhs.row ≠ A.row ∨ vars.row ≠ A.col ∨ vars.col ≠ rhs.col
  · rw [if_pos h1] at h
    exact absurd h (by simp)
  · rw [if_neg h1] at h
    by_cases h2 : ((List.range A.col).all fun ro => (List.range rhs.col).all fun co =>
        (vars.getE ro co).isSymbol)
    · rw [h2] at h
      simp only [Bool.not_true, Bool.false_eq_true, if_false] at h
      have h3 := solveCols_ok_shape (solveElimAug A rhs algo isNum) vars A.row A.col rhs.col
        (List.range rhs.col) ⟨A.col, rhs.col, List.replicate (A.col * rhs.col) (Aff.ofConst 0)⟩
        s h
      exact ⟨h3.1, h3.2.1, h3.2.2.trans (List.length_replicate _ _)⟩
    · rw [Bool.not_eq_true] at h2
      rw [h2] at h
      simp only [Bool.not_false, if_true] at h
      exact absurd h (by simp)

/-- C6: pow(A, 0) on a square matrix returns the identity matrix of the
same dimension, with no invertibility requirement on A (so also for
singular A); for a nonnegative integer exponent the binary exponentiation
loop, seeded with the identity, computes exactly the iterated matrix
power; a negative exponent first computes inverse(A) (propagating its
failure) and then runs the same loop over |n| on the inverse, which
therefore evaluates to the |n|-th iterated power of the inverse. -/
theorem pow_zero_identity_and_binary_exponentiation (A : GMat F) (isNum : F → Bool)
    (hsq : A.row = A.col) (hlen : A.m.length = A.row * A.col) :
    (A.powG 0 isNum = .ok (identityG A.row))
    ∧ (∀ n : ℕ, A.powG (n : ℤ) isNum = .ok (matPowIter A n))
    ∧ (∀ n : ℤ, n < 0 →
        A.powG n isNum = (A.inverse isNum).map
          (fun s => powLoop (n.natAbs + 1) n.natAbs 1 ⟨s.row, s.col, s.m.map Aff.const⟩
            (identityG A.row)))
    ∧ (∀ n : ℤ, n < 0 → ∀ s, A.inverse isNum = .ok s →
        A.powG n isNum = .ok (matPowIter ⟨s.row, s.col, s.m.map Aff.const⟩ n.natAbs)) := by
  have hWA : WFN A.row A := ⟨rfl, hsq.symm, by rw [hlen, ← hsq]⟩
  have hcolrow : (A.col ≠ A.row) = False := by
    rw [← hsq]
    simp
  have hmain : ∀ n : ℕ, A.powG (n : ℤ) isNum = .ok (matPowIter A n) := by
    intro n
    have hneg : ((n : ℤ) < 0) = False := eq_false (by omega)
    simp only [GMat.powG, hcolrow, if_false, hneg, Int.natAbs_ofNat]
    have hbound : n / 1 < 2 ^ (n + 1) := by
      rw [Nat.div_one]
      exact lt_of_lt_of_le (Nat.lt_two_pow n) (Nat.pow_le_pow_right (by omega) (by omega))
    have hl := powLoop_spec (N := A.row) (n + 1) n 1 A (identityG A.row) one_pos
      (one_dvd n) hbound hWA (identityG_WFN _)
    have hm := matPowIter_spec A hWA n
    exact congrArg Except.ok (gmat_eq_of_toMatN _ _ hl.1 hm.1
      (by rw [hl.2, hm.2, toMatN_identityG, one_mul, Nat.div_one]))
  have hneg3 : ∀ n : ℤ, n < 0 →
      A.powG n isNum = (A.inverse isNum).map
        (fun s => powLoop (n.natAbs + 1) n.natAbs 1 ⟨s.row, s.col, s.m.map Aff.const⟩
          (identityG A.row)) := by
    intro n hn
    have hpos : (n < 0) = True := eq_true hn
    simp only [GMat.powG, hcolrow, if_false, hpos, if_true]
    cases hInv : A.inverse isNum with
    | error e => simp [Except.map]
    | ok s => simp [Except.map]
  refine ⟨?_, hmain, hneg3, ?_⟩
  · have h0 := hmain 0
    simpa [matPowIter] using h0
  · intro n hn s hInv
    rw [hneg3 n hn, hInv]
    have hsolve : A.solve (inverseVars A) (inverseRhs A) SolveAlgo.automatic isNum = .ok s := by
      rw [GMat.inverse, if_neg (not_not_intro hsq)] at hInv
      cases hS : A.solve (inverseVars A) (inverseRhs A) SolveAlgo.automatic isNum with
      | ok s1 =>
        rw [hS] at hInv
        obtain rfl := Except.ok.inj hInv
        rfl
      | error e =>
        rw [hS] at hInv
        cases e <;> simp_all
    have hshape := solve_ok_shape A (inverseVars A) (inverseRhs A) SolveAlgo.automatic isNum
      s hsolve
    have hrhscol : (inverseRhs A).col = A.col := rfl
    have hWs : WFN A.row (⟨s.row, s.col, s.m.map Aff.const⟩ : GMat F) := by
      refine ⟨by rw [hshape.1, ← hsq], by rw [hshape.2.1, hrhscol, ← hsq], ?_⟩
      show (s.m.map Aff.const).length = A.row * A.row
      rw [List.length_map, hshape.2.2, hrhscol, ← hsq]
    have hbound : n.natAbs / 1 < 2 ^ (n.natAbs + 1) := by
      rw [Nat.div_one]
      exact lt_of_lt_of_le (Nat.lt_two_pow _) (Nat.pow_le_pow_right (by omega) (by omega))
    have hl := powLoop_spec (N := A.row) (n.natAbs + 1) n.natAbs 1 _ (identityG A.row)
      one_pos (one_dvd _) hbound hWs (identityG_WFN _)
    have hm := matPowIter_spec (⟨s.row, s.col, s.m.map Aff.const⟩ : GMat F) hWs n.natAbs
    have hm2 : WFN A.row (matPowIter (⟨s.row, s.col, s.m.map Aff.const⟩ : GMat F) n.natAbs) :=
      hm.1
    exact congrArg Except.ok (gmat_eq_of_toMatN _ _ hl.1 hm2
      (by rw [hl.2, hm.2, toMatN_identityG, one_mul, Nat.div_one]))

/-- Witness for C6: pow(A, 0) at the concrete singular matrix
[[1,1],[1,1]]. -/
theorem pow_zero_identity_and_binary_exponentiation_witness :
    (⟨2, 2, [(1 : ℚ), 1, 1, 1]⟩ : GMat ℚ).powG 0 (fun _ => true) = .ok (identityG 2) :=
  (pow_zero_identity_and_binary_exponentiation (⟨2, 2, [(1 : ℚ), 1, 1, 1]⟩ : GMat ℚ)
    (fun _ => true) rfl rfl).1

end PowClaim

section DetCorrect

variable {F : Type} [Field F] [DecidableEq F]

theorem findPivT_none {m : ℕ} (v : Fin m → F) (h : findPivT v = none) : ∀ r, v r = 0 := by
  intro r
  have := List.find?_eq_none.mp h r (List.mem_finRange r)
  simpa using this

theorem findPivT_some {m : ℕ} (v : Fin m → F) {i : Fin m} (h : findPivT v = some i) :
    v i ≠ 0 := by
  have := List.find?_some h
  simpa using this

omit [DecidableEq F] in
theorem det_swap_rows {n : ℕ} (M : Matrix (Fin n) (Fin n) F) (i j : Fin n) (hij : i ≠ j) :
    (Matrix.of fun r c => M (Equiv.swap i j r) c).det = -M.det := by
  have h := Matrix.det_permute (Equiv.swap i j) M
  rw [Equiv.Perm.sign_swap hij] at h
  simpa using h

omit [DecidableEq F] in
theorem det_clear_first_col {k : ℕ} (M : Matrix (Fin (k + 2)) (Fin (k + 2)) F)
    (hp : M 0 0 ≠ 0) :
    M.det = M 0 0 * (Matrix.of fun (r c : Fin (k + 1)) =>
      M r.succ c.succ - M r.succ 0 / M 0 0 * M 0 c.succ).det := by
  set L : Matrix (Fin (k + 2)) (Fin (k + 2)) F :=
    Matrix.of fun r j => if r = j then 1 else if j = 0 then -(M r 0 / M 0 0) else 0 with hL
  have hLdet : L.det = 1 := by
    have htri : L.BlockTriangular OrderDual.toDual := by
      intro i j hij
      have hij' : i < j := hij
      show (if i = j then (1 : F) else if j = 0 then -(M i 0 / M 0 0) else 0) = 0
      rw [if_neg (ne_of_lt hij'), if_neg (fun h0 => by
        rw [h0] at hij'
        exact absurd hij' (Fin.not_lt_zero i))]
    rw [Matrix.det_of_lowerTriangular L htri]
    simp [hL, Matrix.of_apply]
  have hLM : L * M = Matrix.of fun r c =>
      if r = 0 then M r c else M r c - M r 0 / M 0 0 * M 0 c := by
    ext r c
    rw [Matrix.mul_apply]
    by_cases hr : r = 0
    · subst hr
      rw [Finset.sum_eq_single 0]
      · simp [hL]
      · intro j _ hj
        have h1 : ¬ ((0 : Fin (k + 2)) = j) := fun h => hj h.symm
        simp [hL, h1, hj]
      · intro h0; exact absurd (Finset.mem_univ 0) h0
    · rw [← Finset.sum_subset (Finset.subset_univ ({0, r} : Finset (Fin (k + 2))))
        (fun j _ hj => ?_)]
      · rw [Finset.sum_pair (Ne.symm hr)]
        simp only [hL, Matrix.of_apply, if_neg hr, if_pos rfl, eq_self_iff_true, if_true,
          one_mul]
        ring
      · simp only [Finset.mem_insert, Finset.mem_singleton, not_or] at hj
        have h1 : ¬ (r = j) := fun h => hj.2 h.symm
        simp [hL, h1, hj.1]
  have hNdet : (Matrix.of fun r c =>
      if r = 0 then M r c else M r c - M r 0 / M 0 0 * M 0 c).det = M.det := by
    rw [← hLM, Matrix.det_mul, hLdet, one_mul]
  rw [← hNdet, Matrix.det_succ_column_zero]
  rw [Finset.sum_eq_single 0]
  · rw [Fin.val_zero, pow_zero, one_mul, Fin.succAbove_zero]
    congr 1
  · intro j _ hj
    have hj0 : (Matrix.of fun r c =>
        if r = 0 then M r c else M r c - M r 0 / M 0 0 * M 0 c) j 0 = 0 := by
      simp only [Matrix.of_apply, if_neg hj]
      rw [div_mul_cancel₀ _ hp]
      ring
    rw [hj0]
    ring
  · intro h0; exact absurd (Finset.mem_univ 0) h0

omit [DecidableEq F] in
theorem step_pivot_swap {k : ℕ} (M : Matrix (Fin (k + 2)) (Fin (k + 2)) F) (i : Fin (k + 2)) :
    (if i = 0 then (1 : F) else -1) * (Matrix.of fun r c => M (Equiv.swap 0 i r) c).det =
      M.det := by
  by_cases hi : i = 0
  · subst hi
    rw [if_pos rfl, one_mul]
    congr 1
    ext r c
    simp [Equiv.swap_self]
  · rw [if_neg hi, det_swap_rows M 0 i (fun h => hi h.symm), neg_mul, one_mul, neg_neg]

theorem skipIf_clear_eq {k : ℕ} (M1 : Matrix (Fin (k + 2)) (Fin (k + 2)) F) :
    (Matrix.of fun (r c : Fin (k + 1)) =>
      if M1 r.succ 0 = 0 then M1 r.succ c.succ
      else M1 r.succ c.succ - M1 r.succ 0 / M1 0 0 * M1 0 c.succ) =
    Matrix.of fun (r c : Fin (k + 1)) =>
      M1 r.succ c.succ - M1 r.succ 0 / M1 0 0 * M1 0 c.succ := by
  ext r c
  simp only [Matrix.of_apply]
  by_cases hz : M1 r.succ 0 = 0
  · rw [if_pos hz, hz, zero_div, zero_mul, sub_zero]
  · rw [if_neg hz]

theorem gaussDetAux_det : ∀ (k : ℕ) (M : Matrix (Fin (k + 1)) (Fin (k + 1)) F),
    gaussDetAux k M = M.det
  | 0, M => by rw [gaussDetAux, Matrix.det_fin_one]
  | k + 1, M => by
    rw [gaussDetAux]
    cases hfind : findPivT (fun r => M r 0) with
    | none => rw [Matrix.det_eq_zero_of_column_eq_zero 0 (findPivT_none _ hfind)]
    | some i =>
      show (if i = 0 then (1 : F) else -1) *
        ((Matrix.of fun r c => M (Equiv.swap 0 i r) c) 0 0 *
          gaussDetAux k (Matrix.of fun (r c : Fin (k + 1)) =>
            if (Matrix.of fun r c => M (Equiv.swap 0 i r) c) r.succ 0 = 0 then
              (Matrix.of fun r c => M (Equiv.swap 0 i r) c) r.succ c.succ
            else (Matrix.of fun r c => M (Equiv.swap 0 i r) c) r.succ c.succ -
              (Matrix.of fun r c => M (Equiv.swap 0 i r) c) r.succ 0 /
                (Matrix.of fun r c => M (Equiv.swap 0 i r) c) 0 0 *
                (Matrix.of fun r c => M (Equiv.swap 0 i r) c) 0 c.succ)) = M.det
      set M1 : Matrix (Fin (k + 2)) (Fin (k + 2)) F :=
        Matrix.of fun r c => M (Equiv.swap 0 i r) c with hM1
      have hp : M1 0 0 ≠ 0 := by
        show M (Equiv.swap 0 i 0) 0 ≠ 0
        rw [Equiv.swap_apply_left]
        exact findPivT_some (fun r => M r 0) hfind
      rw [skipIf_clear_eq M1, gaussDetAux_det k _, ← det_clear_first_col M1 hp,
        step_pivot_swap M i]

theorem bareissAux_det : ∀ (k : ℕ) (d : F) (M : Matrix (Fin (k + 1)) (Fin (k + 1)) F),
    d ≠ 0 → bareissAux k d M = M.det / d ^ k
  | 0, d, M, _ => by rw [bareissAux, Matrix.det_fin_one, pow_zero, div_one]
  | k + 1, d, M, hd => by
    rw [bareissAux]
    cases hfind : findPivT (fun r => M r 0) with
    | none =>
      rw [Matrix.det_eq_zero_of_column_eq_zero 0 (findPivT_none _ hfind), zero_div]
    | some i =>
      show (if i = 0 then (1 : F) else -1) *
        bareissAux k ((Matrix.of fun r c => M (Equiv.swap 0 i r) c) 0 0)
          (Matrix.of fun (r c : Fin (k + 1)) =>
            ((Matrix.of fun r c => M (Equiv.swap 0 i r) c) 0 0 *
              (Matrix.of fun r c => M (Equiv.swap 0 i r) c) r.succ c.succ -
             (Matrix.of fun r c => M (Equiv.swap 0 i r) c) r.succ 0 *
              (Matrix.of fun r c => M (Equiv.swap 0 i r) c) 0 c.succ) / d) =
          M.det / d ^ (k + 1)
      set M1 : Matrix (Fin (k + 2)) (Fin (k + 2)) F :=
        Matrix.of fun r c => M (Equiv.swap 0 i r) c with hM1
      have hp : M1 0 0 ≠ 0 := by
        show M (Equiv.swap 0 i 0) 0 ≠ 0
        rw [Equiv.swap_apply_left]
        exact findPivT_some (fun r => M r 0) hfind
      have hBsmul : (Matrix.of fun (r c : Fin (k + 1)) =>
          (M1 0 0 * M1 r.succ c.succ - M1 r.succ 0 * M1 0 c.succ) / d) =
          (M1 0 0 / d) • Matrix.of fun (r c : Fin (k + 1)) =>
            M1 r.succ c.succ - M1 r.succ 0 / M1 0 0 * M1 0 c.succ := by
        ext r c
        simp only [Matrix.smul_apply, Matrix.of_apply, smul_eq_mul]
        field_simp
        ring
      rw [bareissAux_det k (M1 0 0) _ hp, hBsmul, Matrix.det_smul]
      have hclear := det_clear_first_col M1 hp
      have hstep := step_pivot_swap M i
      rw [← hstep, hclear]
      have hcard : Fintype.card (Fin (k + 1)) = k + 1 := Fintype.card_fin (k + 1)
      rw [hcard]
      set s : F := if i = 0 then (1 : F) else -1 with hs
      set Dc := (Matrix.of fun (r c : Fin (k + 1)) =>
        M1 r.succ c.succ - M1 r.succ 0 / M1 0 0 * M1 0 c.succ).det with hDc
      field_simp
      ring

theorem minorExpand_det {k : ℕ} (M : Matrix (Fin (k + 1)) (Fin (k + 1)) F) :
    ∀ (j : ℕ) (v : Fin (j + 1) → Fin (k + 1)) (h : j + 1 ≤ k + 1),
      minorExpand M j v =
        (Matrix.of fun (i t : Fin (j + 1)) => M (v i) ⟨k - j + ↑t, by omega⟩).det
  | 0, v, h => by
    rw [minorExpand, Matrix.det_fin_one, Matrix.of_apply]
    congr 1
  | j + 1, v, h => by
    rw [minorExpand, Matrix.det_succ_column_zero]
    apply Finset.sum_congr rfl
    intro i _
    have hA0 : (Matrix.of fun (i t : Fin (j + 2)) =>
        M (v i) (⟨k - (j + 1) + ↑t, by omega⟩ : Fin (k + 1))) i 0 =
        M (v i) (⟨k - (j + 1), by omega⟩ : Fin (k + 1)) := by
      rw [Matrix.of_apply]
      congr 1
    have hsub : ((Matrix.of fun (i t : Fin (j + 2)) =>
        M (v i) (⟨k - (j + 1) + ↑t, by omega⟩ : Fin (k + 1))).submatrix
          i.succAbove Fin.succ) =
        Matrix.of fun (r t : Fin (j + 1)) =>
          M (v (i.succAbove r)) (⟨k - j + ↑t, by omega⟩ : Fin (k + 1)) := by
      ext r t
      rw [Matrix.submatrix_apply, Matrix.of_apply, Matrix.of_apply]
      congr 1
      apply Fin.ext
      show k - (j + 1) + (↑t + 1) = k - j + ↑t
      omega
    rw [hA0, hsub, ← minorExpand_det (j := j) M (fun t => v (i.succAbove t)) (by omega)]
    by_cases hz : M (v i) (⟨k - (j + 1), by omega⟩ : Fin (k + 1)) = 0
    · rw [if_pos hz, hz]
      ring
    · rw [if_neg hz]
      ring

theorem detMinorT_det : ∀ {k : ℕ} (M : Matrix (Fin (k + 1)) (Fin (k + 1)) F),
    detMinorT M = M.det
  | 0, M => by rw [detMinorT, Matrix.det_fin_one]
  | 1, M => by rw [detMinorT, Matrix.det_fin_two]; ring
  | 2, M => by rw [detMinorT, Matrix.det_fin_three]; ring
  | j + 3, M => by
    rw [detMinorT, minorExpand_det M (j + 3) (fun r => r) (by omega)]
    congr 1
    ext i t
    rw [Matrix.of_apply]
    congr 1
    apply Fin.ext
    show j + 3 - (j + 3) + ↑t = ↑t
    omega

theorem laplaceDetT_det {k : ℕ} (M : Matrix (Fin (k + 1)) (Fin (k + 1)) F) :
    laplaceDetT M = M.det := by
  rw [laplaceDetT]
  set σ := preSortPerm M with hσ
  have hperm : (Matrix.of fun r c => M r (σ c)) = M.submatrix id σ := by
    ext r c
    rfl
  rw [detMinorT_det, hperm, Matrix.det_permute']
  rw [permutation_sign]
  rcases Int.units_eq_one_or (Equiv.Perm.sign σ) with hs | hs <;>
    rw [hs] <;> push_cast <;> ring

/-- C1: for every square matrix (over the field modelling GiNaC's exact
ring elements, numeric or symbolic), computing the determinant with the
gauss algorithm, the fraction-free (bareiss) algorithm and the laplace
(minor-expansion) algorithm yields equal results: each branch of
matrix::determinant computes the abstract determinant of the matrix. -/
theorem determinant_gauss_bareiss_laplace_agree {k : ℕ}
    (M : Matrix (Fin (k + 1)) (Fin (k + 1)) F) (isNum : F → Bool) :
    determinantT M isNum DetAlgo.gauss = determinantT M isNum DetAlgo.laplace
    ∧ determinantT M isNum DetAlgo.bareiss = determinantT M isNum DetAlgo.laplace := by
  have hg : determinantT M isNum DetAlgo.gauss =
      if k = 0 then M 0 0 else gaussDetAux k M := rfl
  have hb : determinantT M isNum DetAlgo.bareiss =
      if k = 0 then M 0 0 else bareissAux k 1 M := rfl
  have hl : determinantT M isNum DetAlgo.laplace =
      if k = 0 then M 0 0 else laplaceDetT M := rfl
  by_cases hk : k = 0
  · rw [hg, hb, hl, if_pos hk, if_pos hk, if_pos hk]
    exact ⟨rfl, rfl⟩
  · rw [hg, hb, hl, if_neg hk, if_neg hk, if_neg hk, gaussDetAux_det, laplaceDetT_det,
      bareissAux_det k 1 M one_ne_zero, one_pow, div_one]
    exact ⟨rfl, rfl⟩

end DetCorrect

end Ginac
